import Mathlib

/-!
Verification of the in-memory SQLite VFS (`sqlite_memory_vfs.py`).

The development shallowly embeds the two cores of the module:

* the sparse block store kept in each registry entry (`SortedDict` mapping
  byte offset to a `bytes` run), together with the file-handle operations
  `xRead`, `xWrite`, `xTruncate`, `xFileSize`, and the bulk operations
  `serialize_iter` / `deserialize_iter`;
* the five-level lock state machine implemented by `xLock` / `xUnlock`,
  with the per-file counter dictionary and the per-handle current level.

Stores are modelled as association lists sorted by strictly increasing key,
which is exactly the iteration/search behaviour of `SortedDict`:
`countLt` is `bisect_left`, `insertSorted` is `db[k] = v`, `eraseKey` is
`del db[k]`, and `List.drop i` is `peekitem` from index `i` onwards.
Byte strings are `List Nat`; Python's potentially negative intermediate
quantities in `_blocks` (`consume` may go negative past end-of-store) are
kept as `Int`, matching the source arithmetic exactly.
-/

namespace MemVFS

abbrev Bytes := List Nat

abbrev Store := List (Nat × Bytes)

/-- `SortedDict.bisect_left(offset)`: number of keys strictly below `offset`. -/
def countLt (s : Store) (off : Nat) : Nat := (s.filter (fun p => p.1 < off)).length

/-- `db[k] = v` on a `SortedDict`: insert keeping keys sorted, replacing an
existing binding of the same key. -/
def insertSorted : Store → Nat → Bytes → Store
  | [], k, v => [(k, v)]
  | (k', v') :: t, k, v =>
    if k < k' then (k, v) :: (k', v') :: t
    else if k = k' then (k, v) :: t
    else (k', v') :: insertSorted t k v

/-- `del db[k]`. -/
def eraseKey (s : Store) (k : Nat) : Store := s.filter (fun p => p.1 ≠ k)

/-- Python slice `b[start:start+consume]` for `start ≥ 0` (negative or zero
`consume` gives the empty string). -/
def intSlice (b : Bytes) (start consume : Int) : Bytes :=
  if consume ≤ 0 then [] else (b.drop start.toNat).take consume.toNat

/-- The loop of `MemoryVFSFile._blocks`, iterating from the current index to
the end of the dict: while `amount > 0`, stop at end of dict or at a block
whose offset exceeds the running offset, otherwise yield
`(block_offset, block, start, consume)` and advance. -/
def blocksGo : Store → Int → Int → List (Nat × Bytes × Int × Int)
  | [], _, _ => []
  | (bo, b) :: rest, offset, amount =>
    if amount ≤ 0 then []
    else if (bo : Int) > offset then []
    else
      let start : Int := offset - bo
      let consume : Int := min ((b.length : Int) - start) amount
      (bo, b, start, consume) :: blocksGo rest (offset + consume) (amount - consume)

/-- `MemoryVFSFile._blocks(offset, amount)`: start at
`max(bisect_left(offset) - 1, 0)` and run the loop. -/
def blocksOf (s : Store) (offset amount : Nat) : List (Nat × Bytes × Int × Int) :=
  blocksGo (s.drop (countLt s offset - 1)) offset amount

/-- Join the Python slices `block[start:start+consume]` of a list of yielded
blocks (the `b''.join(...)` of `xRead`). -/
def readOut (l : List (Nat × Bytes × Int × Int)) : Bytes :=
  (l.map (fun t => intSlice t.2.1 t.2.2.1 t.2.2.2)).flatten

/-- `MemoryVFSFile.xRead`: join of the slices of all yielded blocks. -/
def xRead (s : Store) (amount offset : Nat) : Bytes :=
  readOut (blocksOf s offset amount)

/-- `MemoryVFSFile.xFileSize`: offset plus length of the last block, 0 when empty. -/
def xFileSize (s : Store) : Nat :=
  match s.getLast? with
  | none => 0
  | some (k, b) => k + b.length

/-- One iteration of the deletion loop in `MemoryVFSFile.xWrite`: keep the
unaffected prefix (or delete the block when there is none) and re-insert the
unaffected suffix. -/
def applyDelete (acc : Store) (t : Nat × Bytes × Int × Int) : Store :=
  let bo := t.1
  let b := t.2.1
  let start := t.2.2.1
  let consume := t.2.2.2
  let leftKeep := b.take start.toNat
  let rightOff := bo + (start + consume).toNat
  let rightKeep := b.drop (start + consume).toNat
  let acc1 := if leftKeep ≠ [] then insertSorted acc bo leftKeep else eraseKey acc bo
  if rightKeep ≠ [] then insertSorted acc1 rightOff rightKeep else acc1

/-- `MemoryVFSFile.xWrite(data, offset)`: if the store is nonempty and the
write starts at or past the current end-of-store, first insert a zero-filled
run covering the gap (`db[size] = bytes(offset - size)`); then split every
block yielded by `_blocks(offset, len(data))`; finally `db[offset] = data`. -/
def xWrite (s : Store) (data : Bytes) (offset : Nat) : Store :=
  let s1 :=
    if s.isEmpty then s
    else
      let sz := xFileSize s
      if sz ≤ offset then insertSorted s sz (List.replicate (offset - sz) 0) else s
  let dels := blocksOf s1 offset data.length
  let s2 := dels.foldl applyDelete s1
  insertSorted s2 offset data

/-- `MemoryVFSFile.xTruncate(newsize)`: per block, with
`to_keep = max(newsize - block_offset, 0)`: delete it when `to_keep == 0`,
truncate it to its first `to_keep` bytes when `to_keep < len(block)`, keep it
otherwise. -/
def xTruncate (s : Store) (newsize : Nat) : Store :=
  s.filterMap (fun p =>
    let toKeep := newsize - p.1
    if toKeep = 0 then none
    else if toKeep < p.2.length then some (p.1, p.2.take toKeep)
    else some p)

/-- `MemoryVFS.serialize_iter`: yield `db.values()` in ascending key order. -/
def serializeIter (s : Store) : List Bytes := s.map Prod.snd

/-- The store-building loop of `MemoryVFS.deserialize_iter`:
`db[i] = b; i += len(b)` over all chunks, starting from a fresh dict. -/
def deserialize (cs : List Bytes) : Store :=
  (cs.foldl (fun acc b => (insertSorted acc.1 acc.2 b, acc.2 + b.length)) (([] : Store), 0)).1

/-- Folding `xWrite` over a list of `(data, offset)` pairs, from the empty
store of a freshly opened file. -/
def writeSeq (ws : List (Bytes × Nat)) : Store :=
  ws.foldl (fun s p => xWrite s p.1 p.2) []

/-- Logical byte content of a store: its runs joined in key order (this is
also the concatenation of everything `serialize_iter` yields). -/
def flattenStore (s : Store) : Bytes := (s.map Prod.snd).flatten

/-- The store's runs tile the byte range starting at `n` with no gap and no
overlap: each key is the running sum of the lengths of the runs before it. -/
def chainedFrom : Nat → Store → Bool
  | _, [] => true
  | n, (k, b) :: t => k == n && chainedFrom (n + b.length) t

/-- Every run of the store is nonempty. -/
def allNonempty (s : Store) : Bool := s.all (fun p => !p.2.isEmpty)

/-- Every run except possibly the last is nonempty (a `deserialize` of chunks
ending in an empty chunk leaves one trailing empty run). -/
def neLast : Store → Bool
  | [] => true
  | [_] => true
  | (_, b) :: t => !b.isEmpty && neLast t

/-- Keys strictly ascending (the `SortedDict` representation invariant). -/
def sortedKeys (s : Store) : Prop := s.Pairwise (fun p q => p.1 < q.1)

instance (s : Store) : Decidable (sortedKeys s) := by
  unfold sortedKeys
  infer_instance

/-- The stores reachable through the interface when every written datum and
every deserialized chunk is a nonempty byte string (`deserialize` installs a
brand-new store, so it may also occur first in a history). -/
inductive ReachableNE : Store → Prop
  | empty : ReachableNE []
  | write {s} (data : Bytes) (off : Nat) :
      ReachableNE s → data ≠ [] → ReachableNE (xWrite s data off)
  | trunc {s} (n : Nat) : ReachableNE s → ReachableNE (xTruncate s n)
  | deser (cs : List Bytes) : (∀ b ∈ cs, b ≠ []) → ReachableNE (deserialize cs)

/-! ## The lock state machine

SQLite lock levels (apsw constants): NONE = 0, SHARED = 1, RESERVED = 2,
PENDING = 3, EXCLUSIVE = 4.  The per-file `locks` dictionary keeps one
counter per non-NONE level; counters are modelled as `Int` so that the
explicit `max(· - 1, 0)` floor of `xUnlock` is represented faithfully.
Each open handle has its own `_level`, NONE initially; a multi-handle
system is the counters together with the list of all handles' levels. -/

structure Counts where
  shared : Int
  reserved : Int
  pending : Int
  exclusive : Int
deriving Repr, DecidableEq

structure LockSys where
  counts : Counts
  levels : List Nat
deriving Repr, DecidableEq

/-- `self._locks[level] += 1` (the dict has keys 1..4 only; `xLock` is never
called with NONE by the engine, and no theorem below exercises level 0). -/
def incLevel (c : Counts) (level : Nat) : Counts :=
  if level = 1 then { c with shared := c.shared + 1 }
  else if level = 2 then { c with reserved := c.reserved + 1 }
  else if level = 3 then { c with pending := c.pending + 1 }
  else if level = 4 then { c with exclusive := c.exclusive + 1 }
  else c

/-- `MemoryVFSFile.xLock` for handle `h`.  The returned `Bool` is `true` when
the call returns normally and `false` when it raises `apsw.BusyError`; the
returned state is the state after the call in either case (the
anti-starvation branch mutates the state before raising). -/
def xLock (st : LockSys) (h : Nat) (level : Nat) : LockSys × Bool :=
  let cur := st.levels.getD h 0
  if cur = level then (st, true)
  else if level = 1 ∧ st.counts.pending ≠ 0 then (st, false)
  else if level = 1 ∧ st.counts.exclusive ≠ 0 then (st, false)
  else if level = 2 ∧ st.counts.reserved ≠ 0 then (st, false)
  else if level = 4 ∧ st.counts.shared > 1 then
    if st.counts.pending = 0 then
      ({ counts := { st.counts with pending := st.counts.pending + 1 },
         levels := st.levels.set h 3 }, false)
    else (st, false)
  else
    ({ counts := incLevel st.counts level, levels := st.levels.set h level }, true)

/-- `MemoryVFSFile.xUnlock` for handle `h`: for every `lock_level` with
`self._level >= lock_level and level < lock_level`, decrement that counter
floored at zero, then record the handle's new level. -/
def xUnlock (st : LockSys) (h : Nat) (level : Nat) : LockSys :=
  let cur := st.levels.getD h 0
  if cur = level then st
  else
    { counts :=
        { shared := if level < 1 ∧ 1 ≤ cur then max (st.counts.shared - 1) 0 else st.counts.shared
          reserved := if level < 2 ∧ 2 ≤ cur then max (st.counts.reserved - 1) 0 else st.counts.reserved
          pending := if level < 3 ∧ 3 ≤ cur then max (st.counts.pending - 1) 0 else st.counts.pending
          exclusive := if level < 4 ∧ 4 ≤ cur then max (st.counts.exclusive - 1) 0 else st.counts.exclusive }
      levels := st.levels.set h level }

/-- A fresh lock system for `n` handles on one file: all counters zero, every
handle at NONE. -/
def initLocks (n : Nat) : LockSys :=
  { counts := ⟨0, 0, 0, 0⟩, levels := List.replicate n 0 }

/-- Two handles on one file; handle 0 has acquired SHARED and then jumped
directly to EXCLUSIVE (the hot-journal path), handle 1 is still at NONE. -/
def exclusiveState : LockSys := (xLock (xLock (initLocks 2) 0 1).1 0 4).1

/-! ## The registry (`MemoryVFS.databases`)

`databases` maps a file name to a tuple `(db, lock, locks)`.  Handles bind
the *object* `db`, not the name, so replacing the tuple's first component
(as `deserialize_iter` does) leaves existing handles attached to the old
store object.  We model object identity with a heap of stores addressed by
index: a registry entry holds a heap reference plus an opaque token standing
for the `(lock, locks)` pair, which `deserialize_iter` preserves via
`(db,) + self.databases[filename][1:]`. -/

structure Registry where
  heap : List Store
  entries : List (Nat × Nat × Nat)
deriving Repr, DecidableEq

def findEntry (r : Registry) (name : Nat) : Option (Nat × Nat) :=
  (r.entries.find? (fun e => e.1 = name)).map Prod.snd

/-- `MemoryVFS.xOpen`: look the name up; if absent, create an empty store and
a fresh lock state and register them.  Returns the registry together with
the handle's bound store reference and lock token. -/
def xOpen (r : Registry) (name : Nat) : Registry × Nat × Nat :=
  match findEntry r name with
  | some e => (r, e)
  | none =>
    let ref := r.heap.length
    ({ heap := r.heap ++ [[]], entries := r.entries ++ [(name, ref, ref)] }, ref, ref)

/-- Dereference a handle's bound store object. -/
def heapStore (r : Registry) (ref : Nat) : Store := r.heap.getD ref []

/-- `xRead` through an open handle. -/
def hRead (r : Registry) (ref : Nat) (amount offset : Nat) : Bytes :=
  xRead (heapStore r ref) amount offset

/-- `xWrite` through an open handle mutates the bound store object in place. -/
def hWrite (r : Registry) (ref : Nat) (data : Bytes) (offset : Nat) : Registry :=
  { r with heap := r.heap.set ref (xWrite (heapStore r ref) data offset) }

/-- `xFileSize` through an open handle. -/
def hFileSize (r : Registry) (ref : Nat) : Nat := xFileSize (heapStore r ref)

/-- Consume the byte-chunk source of `deserialize_iter`; the source may raise
(`Except.error`) at any point, aborting the whole iteration. -/
def readChunks : List (Except Unit Bytes) → Except Unit (List Bytes)
  | [] => .ok []
  | .error e :: _ => .error e
  | .ok b :: t => (readChunks t).map (b :: ·)

/-- `MemoryVFS.deserialize_iter`: build a brand-new store from the chunk
source; then (`BEGIN EXCLUSIVE`, modelled by `lockOk`) replace the named
entry's store component, keeping the rest of the tuple.  The `Bool` result
is `true` when the call completes; any exception (source failure, lock
failure, missing name) propagates before the registry is touched. -/
def deserializeIter (r : Registry) (name : Nat) (src : List (Except Unit Bytes))
    (lockOk : Bool) : Registry × Bool :=
  match readChunks src with
  | .error _ => (r, false)
  | .ok cs =>
    if lockOk then
      match findEntry r name with
      | some (_, lk) =>
        ({ heap := r.heap ++ [deserialize cs],
           entries := r.entries.map (fun e => if e.1 = name then (name, r.heap.length, lk) else e) },
         true)
      | none => (r, false)
    else (r, false)

end MemVFS

namespace MemVFS

/-! ## Auxiliary list lemmas -/

theorem getDq {l : List Nat} {i : Nat} (a : Nat) (h : i < l.length) :
    (l.set i a)[i]?.getD 0 = a := by
  rw [List.getElem?_set_self (by simpa using h)]
  rfl

theorem find?_map_replace (l : List (Nat × Nat × Nat)) (name : Nat) (v : Nat × Nat)
    (hl : (l.find? (fun e => e.1 = name)).isSome) :
    ((l.map (fun e => if e.1 = name then (name, v.1, v.2) else e)).find?
      (fun e => e.1 = name)) = some (name, v.1, v.2) := by
  induction l with
  | nil => simp [List.find?] at hl
  | cons e t ih =>
    by_cases he : e.1 = name
    · rw [List.map_cons, if_pos he]
      exact List.find?_cons_of_pos _ (by simp)
    · rw [List.map_cons, if_neg he]
      rw [List.find?_cons_of_neg _ (by simpa using he)]
      rw [List.find?_cons_of_neg _ (by simpa using he)] at hl
      exact ih hl

/-! ## Lock-protocol claims (C2, C4, C7) -/

/-- C2, counterexample.  In `exclusiveState` handle 0's current level is
EXCLUSIVE (and the EXCLUSIVE counter is positive), yet an `xLock` call by
handle 1 requesting RESERVED returns normally instead of raising Busy — and
so does a request for EXCLUSIVE: `xLock` only guards RESERVED against
another RESERVED holder and EXCLUSIVE against multiple SHARED holders, so
the claim's "every xLock call by B requesting SHARED, RESERVED, or
EXCLUSIVE fails with Busy" is false at this input. -/
theorem C2_counterexample :
    exclusiveState.levels.getD 0 0 = 4 ∧
    exclusiveState.counts.exclusive = 1 ∧
    (xLock exclusiveState 1 2).2 = true ∧
    (xLock exclusiveState 1 4).2 = true := by
  decide

/-- C2, amended: while a handle holds EXCLUSIVE (positive EXCLUSIVE
counter), every `xLock(SHARED)` call by a handle currently at NONE raises
Busy and leaves the state unchanged; RESERVED or EXCLUSIVE requests cannot
arise from a protocol-respecting handle B, which would first have to obtain
SHARED.  Only after the holder releases via `xUnlock(NONE)` does a retry of
SHARED succeed — the last two conjuncts are the spec's scenario: H1 holds
EXCLUSIVE; H2 attempts SHARED → Busy; H1 releases to NONE; H2 retries
SHARED → success. -/
theorem C2_amended (st : LockSys) (b : Nat)
    (hexc : st.counts.exclusive ≠ 0) (hb : st.levels.getD b 0 = 0) :
    xLock st b 1 = (st, false) ∧
    (xLock exclusiveState 1 1).2 = false ∧
    (xLock (xUnlock exclusiveState 0 0) 1 1).2 = true := by
  refine ⟨?_, by decide, by decide⟩
  rw [List.getD_eq_getElem?_getD] at hb
  unfold xLock
  simp only [hb]
  rcases eq_or_ne st.counts.pending 0 with hp | hp <;> simp [hp, hexc, hb]

/-- Witness for `C2_amended` at a concrete state: one handle at EXCLUSIVE,
the requester at NONE. -/
theorem C2_amended_witness :
    xLock ⟨⟨1, 0, 0, 1⟩, [4, 0]⟩ 1 1 = (⟨⟨1, 0, 0, 1⟩, [4, 0]⟩, false) ∧
    (xLock exclusiveState 1 1).2 = false ∧
    (xLock (xUnlock exclusiveState 0 0) 1 1).2 = true :=
  C2_amended ⟨⟨1, 0, 0, 1⟩, [4, 0]⟩ 1 (by decide) (by decide)

/-- C4: a handle not already at EXCLUSIVE requesting EXCLUSIVE while the
SHARED counter exceeds one gets Busy; if at that moment no handle holds
PENDING, the requester is first promoted: its recorded level becomes
PENDING (3) and the PENDING counter becomes nonzero.  While any handle
holds PENDING, every `xLock(SHARED)` acquisition attempt by a handle not
already holding SHARED raises Busy. -/
theorem C4_pending_promotion (st : LockSys) (h : Nat) (hlen : h < st.levels.length)
    (hcur : st.levels.getD h 0 ≠ 4) (hsh : st.counts.shared > 1) :
    (xLock st h 4).2 = false ∧
    (st.counts.pending = 0 →
      (xLock st h 4).1.levels.getD h 0 = 3 ∧ (xLock st h 4).1.counts.pending ≠ 0) ∧
    (∀ (st2 : LockSys) (g : Nat), st2.counts.pending ≠ 0 → st2.levels.getD g 0 ≠ 1 →
      (xLock st2 g 1).2 = false) := by
  rw [List.getD_eq_getElem?_getD] at hcur
  refine ⟨?_, ?_, ?_⟩
  · unfold xLock
    rcases eq_or_ne st.counts.pending 0 with hp | hp <;>
      simp [hp, hsh, hcur]
  · intro hp
    unfold xLock
    simp [hp, hsh, hcur, List.getD_eq_getElem?_getD, getDq _ hlen]
  · intro st2 g hp hg
    rw [List.getD_eq_getElem?_getD] at hg
    unfold xLock
    simp [hp, hg]

/-- Witness for `C4_pending_promotion`: two SHARED holders, handle 0
requests EXCLUSIVE. -/
theorem C4_witness :
    (xLock ⟨⟨2, 0, 0, 0⟩, [1, 1]⟩ 0 4).2 = false ∧
    ((⟨2, 0, 0, 0⟩ : Counts).pending = 0 →
      (xLock ⟨⟨2, 0, 0, 0⟩, [1, 1]⟩ 0 4).1.levels.getD 0 0 = 3 ∧
      (xLock ⟨⟨2, 0, 0, 0⟩, [1, 1]⟩ 0 4).1.counts.pending ≠ 0) ∧
    (∀ (st2 : LockSys) (g : Nat), st2.counts.pending ≠ 0 → st2.levels.getD g 0 ≠ 1 →
      (xLock st2 g 1).2 = false) :=
  C4_pending_promotion ⟨⟨2, 0, 0, 0⟩, [1, 1]⟩ 0 (by decide) (by decide) (by decide)

/-- C7: a handle holding SHARED as the sole reader (SHARED counter 1, no
RESERVED or PENDING holder anywhere) acquires EXCLUSIVE directly, skipping
RESERVED and PENDING, and then releases with `xUnlock(NONE)`.  The
acquisition succeeds; afterwards every counter is nonnegative (the
`max(· - 1, 0)` floor absorbs the decrements of the never-incremented
RESERVED and PENDING counters) and the final state is exactly as if the
skipped levels had never been held by anyone: all counters return to their
values with the handle's contribution removed, and no other handle's
recorded level changes — so any later `xLock` by another handle behaves
exactly as in that pristine state. -/
theorem C7_downgrade_floor (st : LockSys) (h : Nat) (hlen : h < st.levels.length)
    (hcur : st.levels.getD h 0 = 1) (hsh : st.counts.shared = 1)
    (hres : st.counts.reserved = 0) (hpen : st.counts.pending = 0)
    (hexc : 0 ≤ st.counts.exclusive) :
    (xLock st h 4).2 = true ∧
    (xUnlock (xLock st h 4).1 h 0).counts = ⟨0, 0, 0, st.counts.exclusive⟩ ∧
    0 ≤ (xUnlock (xLock st h 4).1 h 0).counts.shared ∧
    0 ≤ (xUnlock (xLock st h 4).1 h 0).counts.reserved ∧
    0 ≤ (xUnlock (xLock st h 4).1 h 0).counts.pending ∧
    0 ≤ (xUnlock (xLock st h 4).1 h 0).counts.exclusive ∧
    (xUnlock (xLock st h 4).1 h 0).levels = st.levels.set h 0 := by
  rw [List.getD_eq_getElem?_getD] at hcur
  have hlock : xLock st h 4 =
      ({ counts := incLevel st.counts 4, levels := st.levels.set h 4 }, true) := by
    unfold xLock
    simp [hcur, hsh]
  have hcur4 : (st.levels.set h 4)[h]?.getD 0 = 4 := getDq 4 hlen
  have hunlock : xUnlock { counts := incLevel st.counts 4, levels := st.levels.set h 4 } h 0 =
      { counts := ⟨0, 0, 0, st.counts.exclusive⟩,
        levels := st.levels.set h 0 } := by
    unfold xUnlock
    simp only [List.getD_eq_getElem?_getD, hcur4, incLevel]
    simp [hsh, hres, hpen, List.set_set]
    omega
  rw [hlock]
  simp [hunlock, hexc]

/-- Witness for `C7_downgrade_floor`: a two-handle system, handle 0 the sole
SHARED holder. -/
theorem C7_witness :
    (xLock ⟨⟨1, 0, 0, 0⟩, [1, 0]⟩ 0 4).2 = true ∧
    (xUnlock (xLock ⟨⟨1, 0, 0, 0⟩, [1, 0]⟩ 0 4).1 0 0).counts = ⟨0, 0, 0, (0 : Int)⟩ ∧
    0 ≤ (xUnlock (xLock ⟨⟨1, 0, 0, 0⟩, [1, 0]⟩ 0 4).1 0 0).counts.shared ∧
    0 ≤ (xUnlock (xLock ⟨⟨1, 0, 0, 0⟩, [1, 0]⟩ 0 4).1 0 0).counts.reserved ∧
    0 ≤ (xUnlock (xLock ⟨⟨1, 0, 0, 0⟩, [1, 0]⟩ 0 4).1 0 0).counts.pending ∧
    0 ≤ (xUnlock (xLock ⟨⟨1, 0, 0, 0⟩, [1, 0]⟩ 0 4).1 0 0).counts.exclusive ∧
    (xUnlock (xLock ⟨⟨1, 0, 0, 0⟩, [1, 0]⟩ 0 4).1 0 0).levels = [1, 0].set 0 0 := by
  have h := C7_downgrade_floor ⟨⟨1, 0, 0, 0⟩, [1, 0]⟩ 0 (by decide) (by decide) (by decide)
    (by decide) (by decide) (by decide)
  simpa using h

/-! ## Registry claims (C9, C10) -/

/-- C9: `deserialize_iter` is all-or-nothing.  If the call does not complete
(the chunk source raises mid-iteration, the exclusive lock cannot be
obtained, or the name is unregistered) the registry — in particular the
named file's entry — is left completely unchanged.  When it does complete,
the whole source was consumed successfully, the replacement store was built
off to the side as a brand-new object (appended to the heap, no existing
store object modified), and only then was the entry swapped to point at it,
keeping the entry's lock structure. -/
theorem C9_deserialize_atomic (r : Registry) (name : Nat)
    (src : List (Except Unit Bytes)) (lockOk : Bool) :
    ((deserializeIter r name src lockOk).2 = false → (deserializeIter r name src lockOk).1 = r) ∧
    ((deserializeIter r name src lockOk).2 = true →
      ∃ cs, readChunks src = .ok cs ∧ lockOk = true ∧
        ∃ lk, (∃ oldRef, findEntry r name = some (oldRef, lk)) ∧
          (deserializeIter r name src lockOk).1.heap = r.heap ++ [deserialize cs] ∧
          findEntry (deserializeIter r name src lockOk).1 name = some (r.heap.length, lk)) := by
  cases hrc : readChunks src with
  | error e => simp [deserializeIter, hrc]
  | ok cs =>
    cases lockOk with
    | false => simp [deserializeIter, hrc]
    | true =>
      cases hfe : findEntry r name with
      | none => simp [deserializeIter, hrc, hfe]
      | some p =>
        obtain ⟨oldRef, lk⟩ := p
        have hsome : (r.entries.find? (fun e => e.1 = name)).isSome := by
          unfold findEntry at hfe
          cases hq : r.entries.find? (fun e => e.1 = name) with
          | none => rw [hq] at hfe; simp at hfe
          | some q => simp
        have hd : deserializeIter r name src true =
            ({ heap := r.heap ++ [deserialize cs],
               entries := r.entries.map
                 (fun e => if e.1 = name then (name, r.heap.length, lk) else e) }, true) := by
          simp [deserializeIter, hrc, hfe]
        refine ⟨by simp [hd], ?_⟩
        intro _
        refine ⟨cs, rfl, rfl, lk, ⟨oldRef, rfl⟩, by simp [hd], ?_⟩
        rw [hd]
        unfold findEntry
        rw [find?_map_replace r.entries name (r.heap.length, lk) hsome]
        rfl

/-- Witness for `C9_deserialize_atomic`: a failing source leaves the concrete
registry untouched. -/
theorem C9_witness :
    ((deserializeIter ⟨[[(0, [5])]], [(7, 0, 3)]⟩ 7 [.error ()] true).2 = false →
      (deserializeIter ⟨[[(0, [5])]], [(7, 0, 3)]⟩ 7 [.error ()] true).1
        = ⟨[[(0, [5])]], [(7, 0, 3)]⟩) ∧
    ((deserializeIter ⟨[[(0, [5])]], [(7, 0, 3)]⟩ 7 [.error ()] true).2 = true →
      ∃ cs, readChunks [.error ()] = .ok cs ∧ true = true ∧
        ∃ lk, (∃ oldRef, findEntry ⟨[[(0, [5])]], [(7, 0, 3)]⟩ 7 = some (oldRef, lk)) ∧
          (deserializeIter ⟨[[(0, [5])]], [(7, 0, 3)]⟩ 7 [.error ()] true).1.heap
            = [[(0, [5])]] ++ [deserialize cs] ∧
          findEntry (deserializeIter ⟨[[(0, [5])]], [(7, 0, 3)]⟩ 7 [.error ()] true).1 7
            = some ([[(0, [5])]].length, lk)) :=
  C9_deserialize_atomic ⟨[[(0, [5])]], [(7, 0, 3)]⟩ 7 [.error ()] true

/-- C10: a successful `deserialize_iter` replaces only the store component
of the registry entry, preserving the entry's lock structure.  A handle
opened before the deserialize keeps its reference to the previous store
object: that object is untouched, so all the handle's subsequent reads (and
writes, which mutate only that object) operate on the old content, while a
handle opened afterwards binds the freshly installed store and observes the
new content. -/
theorem C10_old_handles_keep_old_store (r : Registry) (name : Nat)
    (src : List (Except Unit Bytes)) (cs : List Bytes) (refA lk : Nat)
    (hcs : readChunks src = .ok cs)
    (hfind : findEntry r name = some (refA, lk)) (hval : refA < r.heap.length) :
    heapStore (deserializeIter r name src true).1 refA = heapStore r refA ∧
    (∀ amount offset, hRead (deserializeIter r name src true).1 refA amount offset
        = hRead r refA amount offset) ∧
    findEntry (deserializeIter r name src true).1 name = some (r.heap.length, lk) ∧
    r.heap.length ≠ refA ∧
    heapStore (deserializeIter r name src true).1
        ((xOpen (deserializeIter r name src true).1 name).2.1) = deserialize cs ∧
    (∀ data off,
      heapStore (hWrite (deserializeIter r name src true).1 refA data off) r.heap.length
        = deserialize cs) := by
  have hsome : (r.entries.find? (fun e => e.1 = name)).isSome := by
    unfold findEntry at hfind
    cases hq : r.entries.find? (fun e => e.1 = name) with
    | none => rw [hq] at hfind; simp at hfind
    | some q => simp
  have hd : deserializeIter r name src true =
      ({ heap := r.heap ++ [deserialize cs],
         entries := r.entries.map
           (fun e => if e.1 = name then (name, r.heap.length, lk) else e) }, true) := by
    simp [deserializeIter, hcs, hfind]
  have hold : heapStore (deserializeIter r name src true).1 refA = heapStore r refA := by
    rw [hd]
    unfold heapStore
    simp only [List.getD_eq_getElem?_getD]
    rw [List.getElem?_append_left hval]
  have hnewfind : findEntry (deserializeIter r name src true).1 name
      = some (r.heap.length, lk) := by
    rw [hd]
    unfold findEntry
    rw [find?_map_replace r.entries name (r.heap.length, lk) hsome]
    rfl
  have hnew : heapStore (deserializeIter r name src true).1 r.heap.length = deserialize cs := by
    rw [hd]
    unfold heapStore
    simp
  refine ⟨hold, fun amount offset => by unfold hRead; rw [hold], hnewfind, by omega, ?_, ?_⟩
  · have hopen : (xOpen (deserializeIter r name src true).1 name).2.1 = r.heap.length := by
      unfold xOpen
      rw [hnewfind]
    rw [hopen, hnew]
  · intro data off
    unfold hWrite heapStore
    simp only [List.getD_eq_getElem?_getD]
    rw [List.getElem?_set_ne (by omega)]
    have h2 := hnew
    unfold heapStore at h2
    simpa using h2

/-- Witness for `C10_old_handles_keep_old_store` on a concrete registry. -/
theorem C10_witness :
    heapStore (deserializeIter ⟨[[(0, [5])]], [(7, 0, 3)]⟩ 7 [.ok [9]] true).1 0
      = heapStore ⟨[[(0, [5])]], [(7, 0, 3)]⟩ 0 ∧
    (∀ amount offset,
      hRead (deserializeIter ⟨[[(0, [5])]], [(7, 0, 3)]⟩ 7 [.ok [9]] true).1 0 amount offset
        = hRead ⟨[[(0, [5])]], [(7, 0, 3)]⟩ 0 amount offset) ∧
    findEntry (deserializeIter ⟨[[(0, [5])]], [(7, 0, 3)]⟩ 7 [.ok [9]] true).1 7
      = some ((⟨[[(0, [5])]], [(7, 0, 3)]⟩ : Registry).heap.length, 3) ∧
    (⟨[[(0, [5])]], [(7, 0, 3)]⟩ : Registry).heap.length ≠ 0 ∧
    heapStore (deserializeIter ⟨[[(0, [5])]], [(7, 0, 3)]⟩ 7 [.ok [9]] true).1
        ((xOpen (deserializeIter ⟨[[(0, [5])]], [(7, 0, 3)]⟩ 7 [.ok [9]] true).1 7).2.1)
      = deserialize [[9]] ∧
    (∀ data off,
      heapStore (hWrite (deserializeIter ⟨[[(0, [5])]], [(7, 0, 3)]⟩ 7 [.ok [9]] true).1 0 data off)
          (⟨[[(0, [5])]], [(7, 0, 3)]⟩ : Registry).heap.length
        = deserialize [[9]]) :=
  C10_old_handles_keep_old_store ⟨[[(0, [5])]], [(7, 0, 3)]⟩ 7 [.ok [9]] [[9]] 0 3
    rfl (by decide) (by decide)

end MemVFS

namespace MemVFS

/-! ## Basic store lemmas -/

theorem flattenStore_nil : flattenStore [] = [] := rfl

theorem flattenStore_cons (k : Nat) (b : Bytes) (t : Store) :
    flattenStore ((k, b) :: t) = b ++ flattenStore t := by
  simp [flattenStore]

theorem flattenStore_append (s t : Store) :
    flattenStore (s ++ t) = flattenStore s ++ flattenStore t := by
  simp [flattenStore]

theorem chainedFrom_cons {n k : Nat} {b : Bytes} {t : Store} :
    chainedFrom n ((k, b) :: t) = true ↔ k = n ∧ chainedFrom (n + b.length) t = true := by
  simp [chainedFrom]

theorem chainedFrom_append {n : Nat} {s t : Store} :
    chainedFrom n (s ++ t) = true ↔
      chainedFrom n s = true ∧ chainedFrom (n + (flattenStore s).length) t = true := by
  induction s generalizing n with
  | nil => simp [chainedFrom, flattenStore]
  | cons p s ih =>
    obtain ⟨k, b⟩ := p
    simp only [List.cons_append, chainedFrom_cons, ih, flattenStore_cons]
    constructor
    · rintro ⟨hk, h1, h2⟩
      refine ⟨⟨hk, h1⟩, ?_⟩
      convert h2 using 2
      simp
      omega
    · rintro ⟨⟨hk, h1⟩, h2⟩
      refine ⟨hk, h1, ?_⟩
      convert h2 using 2
      simp
      omega

theorem keys_lb {n : Nat} {s : Store} (hc : chainedFrom n s = true) :
    ∀ p ∈ s, n ≤ p.1 := by
  induction s generalizing n with
  | nil => simp
  | cons p t ih =>
    obtain ⟨k, b⟩ := p
    rw [chainedFrom_cons] at hc
    intro q hq
    rw [List.mem_cons] at hq
    rcases hq with rfl | hq
    · simp [hc.1]
    · have := ih hc.2 q hq
      omega

theorem countLt_cons (k : Nat) (b : Bytes) (t : Store) (off : Nat) :
    countLt ((k, b) :: t) off = (if k < off then 1 else 0) + countLt t off := by
  simp only [countLt, List.filter]
  by_cases h : k < off <;> simp [h, Nat.add_comm]

theorem countLt_eq_zero {s : Store} {off : Nat} (h : ∀ p ∈ s, off ≤ p.1) :
    countLt s off = 0 := by
  unfold countLt
  rw [List.filter_eq_nil_iff.mpr]
  · rfl
  · intro p hp
    simp only [decide_eq_true_eq]
    have := h p hp
    omega

theorem countLt_all {s : Store} {off : Nat} (h : ∀ p ∈ s, p.1 < off) :
    countLt s off = s.length := by
  unfold countLt
  rw [List.filter_eq_self.mpr]
  intro p hp
  simpa using h p hp

theorem blocksGo_zero {t : Store} {off amt : Int} (h : amt ≤ 0) : blocksGo t off amt = [] := by
  cases t with
  | nil => rfl
  | cons p rest =>
    obtain ⟨bo, b⟩ := p
    rw [blocksGo]
    simp [h]

theorem blocksGo_bo_lb {t : Store} {c : Nat} (h : ∀ p ∈ t, c ≤ p.1) :
    ∀ (off amt : Int), ∀ d ∈ blocksGo t off amt, c ≤ d.1 := by
  induction t with
  | nil => intro off amt d hd; simp [blocksGo] at hd
  | cons p rest ih =>
    obtain ⟨bo, b⟩ := p
    intro off amt d hd
    rw [blocksGo] at hd
    by_cases h1 : amt ≤ 0
    · simp [h1] at hd
    · by_cases h2 : (bo : Int) > off
      · simp [h1, h2] at hd
      · simp only [if_neg h1, if_neg h2, List.mem_cons] at hd
        rcases hd with hd | hd
        · subst hd
          exact h (bo, b) (by simp)
        · exact ih (fun p hp => h p (by simp [hp])) _ _ d hd

theorem readOut_nil : readOut [] = [] := rfl

theorem readOut_cons (x : Nat × Bytes × Int × Int) (l : List (Nat × Bytes × Int × Int)) :
    readOut (x :: l) = intSlice x.2.1 x.2.2.1 x.2.2.2 ++ readOut l := by
  simp [readOut]

theorem insertSorted_front {t : Store} {k : Nat} (v : Bytes) (h : ∀ p ∈ t, k < p.1) :
    insertSorted t k v = (k, v) :: t := by
  cases t with
  | nil => rfl
  | cons p rest =>
    obtain ⟨k', v'⟩ := p
    have hk : k < k' := h (k', v') (by simp)
    simp [insertSorted, hk]

theorem insertSorted_cons_gt {k' : Nat} (v' : Bytes) {t : Store} {k : Nat} (v : Bytes)
    (h : k' < k) : insertSorted ((k', v') :: t) k v = (k', v') :: insertSorted t k v := by
  simp only [insertSorted]
  rw [if_neg (by omega), if_neg (by omega)]

theorem insertSorted_append_big {s : Store} {k : Nat} (v : Bytes) (h : ∀ p ∈ s, p.1 < k) :
    insertSorted s k v = s ++ [(k, v)] := by
  induction s with
  | nil => rfl
  | cons p t ih =>
    obtain ⟨k', v'⟩ := p
    rw [insertSorted_cons_gt v' v (h (k', v') (by simp))]
    simp only [List.cons_append, List.cons.injEq, true_and]
    exact ih (fun q hq => h q (by simp [hq]))

theorem insertSorted_replace_last {s : Store} {k : Nat} (w v : Bytes) (h : ∀ p ∈ s, p.1 < k) :
    insertSorted (s ++ [(k, w)]) k v = s ++ [(k, v)] := by
  induction s with
  | nil => simp [insertSorted]
  | cons p t ih =>
    obtain ⟨k', v'⟩ := p
    rw [List.cons_append, insertSorted_cons_gt v' v (h (k', v') (by simp))]
    simp only [List.cons_append, List.cons.injEq, true_and]
    exact ih (fun q hq => h q (by simp [hq]))

theorem insertSorted_self_pre {pre : Store} {k : Nat} (v : Bytes) (rest : Store)
    (h : ∀ p ∈ pre, p.1 < k) :
    insertSorted (pre ++ (k, v) :: rest) k v = pre ++ (k, v) :: rest := by
  induction pre with
  | nil => simp [insertSorted]
  | cons p t ih =>
    obtain ⟨k', v'⟩ := p
    rw [List.cons_append, insertSorted_cons_gt v' v (h (k', v') (by simp))]
    simp only [List.cons_append, List.cons.injEq, true_and]
    exact ih (fun q hq => h q (by simp [hq]))

theorem eraseKey_cons_self {t : Store} {k : Nat} (v : Bytes) (h : ∀ p ∈ t, p.1 ≠ k) :
    eraseKey ((k, v) :: t) k = t := by
  unfold eraseKey
  rw [List.filter_cons_of_neg (by simp)]
  rw [List.filter_eq_self.mpr]
  intro p hp
  simpa using h p hp

theorem eraseKey_cons_ne {t : Store} {k' k : Nat} (v' : Bytes) (h : k' ≠ k) :
    eraseKey ((k', v') :: t) k = (k', v') :: eraseKey t k := by
  unfold eraseKey
  rw [List.filter_cons_of_pos (by simpa using h)]

theorem eraseKey_append_last {s : Store} {k : Nat} (v : Bytes) (h : ∀ p ∈ s, p.1 ≠ k) :
    eraseKey (s ++ [(k, v)]) k = s := by
  induction s with
  | nil => simp [eraseKey]
  | cons p t ih =>
    obtain ⟨k', v'⟩ := p
    rw [List.cons_append, eraseKey_cons_ne v' (h (k', v') (by simp)), ih]
    intro q hq
    exact h q (by simp [hq])

theorem applyDelete_cons_gt {n : Nat} (v : Bytes) {t : Store} {d : Nat × Bytes × Int × Int}
    (h : n < d.1) : applyDelete ((n, v) :: t) d = (n, v) :: applyDelete t d := by
  obtain ⟨bo, b, start, consume⟩ := d
  simp only at h
  unfold applyDelete
  simp only
  by_cases hl : b.take start.toNat ≠ []
  · rw [if_pos hl, if_pos hl, insertSorted_cons_gt v _ h]
    by_cases hr : b.drop (start + consume).toNat ≠ []
    · rw [if_pos hr, if_pos hr, insertSorted_cons_gt v _ (by omega)]
    · rw [if_neg hr, if_neg hr]
  · rw [if_neg hl, if_neg hl, eraseKey_cons_ne v (by omega)]
    by_cases hr : b.drop (start + consume).toNat ≠ []
    · rw [if_pos hr, if_pos hr, insertSorted_cons_gt v _ (by omega)]
    · rw [if_neg hr, if_neg hr]

theorem foldl_applyDelete_cons {dels : List (Nat × Bytes × Int × Int)} {n : Nat} (v : Bytes)
    (t : Store) (h : ∀ d ∈ dels, n < d.1) :
    dels.foldl applyDelete ((n, v) :: t) = (n, v) :: dels.foldl applyDelete t := by
  induction dels generalizing t with
  | nil => rfl
  | cons d ds ih =>
    rw [List.foldl_cons, List.foldl_cons, applyDelete_cons_gt v (h d (by simp))]
    exact ih _ (fun q hq => h q (by simp [hq]))

theorem xFileSize_cons {k : Nat} {b : Bytes} {t : Store} (h : t ≠ []) :
    xFileSize ((k, b) :: t) = xFileSize t := by
  unfold xFileSize
  cases t with
  | nil => exact absurd rfl h
  | cons q u => rw [List.getLast?_cons_cons]

theorem xFileSize_chained {n : Nat} {s : Store} (hc : chainedFrom n s = true) (hs : s ≠ []) :
    xFileSize s = n + (flattenStore s).length := by
  induction s generalizing n with
  | nil => exact absurd rfl hs
  | cons p t ih =>
    obtain ⟨k, b⟩ := p
    rw [chainedFrom_cons] at hc
    obtain ⟨hk, hc2⟩ := hc
    subst hk
    cases t with
    | nil => simp [xFileSize, flattenStore]
    | cons q u =>
      rw [xFileSize_cons (by simp), ih hc2 (by simp)]
      simp only [flattenStore_cons, List.length_append]
      omega

end MemVFS

namespace MemVFS

/-! ## Reads of a chained store are slices of its content -/

theorem blocksGo_cons {bo : Nat} {b : Bytes} {rest : Store} {offset amount : Int}
    (h1 : 0 < amount) (h2 : (bo : Int) ≤ offset) :
    blocksGo ((bo, b) :: rest) offset amount =
      (bo, b, offset - bo, min ((b.length : Int) - (offset - bo)) amount) ::
        blocksGo rest (offset + min ((b.length : Int) - (offset - bo)) amount)
          (amount - min ((b.length : Int) - (offset - bo)) amount) := by
  rw [blocksGo]
  rw [if_neg (by omega), if_neg (by omega)]

theorem walk_slice (t : Store) (n off amt : Nat) (hc : chainedFrom n t = true) (hn : n ≤ off)
    (hoff : off ≤ n + (t.headD (0, [])).2.length) :
    readOut (blocksGo t ↑off ↑amt) = ((flattenStore t).drop (off - n)).take amt := by
  induction t generalizing n off amt with
  | nil => simp [blocksGo, readOut, flattenStore]
  | cons p rest ih =>
    obtain ⟨k, b⟩ := p
    rw [chainedFrom_cons] at hc
    obtain ⟨hk, hc2⟩ := hc
    subst hk
    simp only [List.headD_cons] at hoff
    rcases Nat.eq_zero_or_pos amt with rfl | hamt
    · rw [blocksGo_zero (by simp)]
      simp [readOut]
    · rw [blocksGo_cons (by omega) (by exact_mod_cast Int.ofNat_le.mpr hn)]
      rw [readOut_cons]
      simp only [flattenStore_cons]
      by_cases hA : amt ≤ b.length - (off - k)
      · -- the whole read fits inside this block
        have hmin : min ((b.length : Int) - (↑off - ↑k)) ↑amt = ↑amt := by omega
        rw [hmin]
        have hz : (↑amt - ↑amt : Int) = 0 := by omega
        rw [hz, blocksGo_zero (le_refl 0), readOut_nil, List.append_nil]
        have hsl : intSlice b (↑off - ↑k) ↑amt = (b.drop (off - k)).take amt := by
          unfold intSlice
          have h3 : ((↑off - ↑k : Int)).toNat = off - k := by omega
          have h4 : ((amt : Int)).toNat = amt := by omega
          rw [if_neg (by omega), h3, h4]
        rw [hsl]
        rw [List.drop_append_eq_append_drop]
        rw [List.take_append_eq_append_take]
        have h1 : (off - k) - b.length = 0 := by omega
        have h2 : amt - ((b.drop (off - k)).length) = 0 := by
          simp only [List.length_drop]
          omega
        rw [h1, h2]
        simp
      · -- the read consumes the rest of this block and continues
        have hmin : min ((b.length : Int) - (↑off - ↑k)) ↑amt
            = (b.length : Int) - (↑off - ↑k) := by omega
        rw [hmin]
        have ho : (↑off + ((b.length : Int) - (↑off - ↑k))) = ((k + b.length : Nat) : Int) := by
          push_cast
          omega
        have ha : (↑amt - ((b.length : Int) - (↑off - ↑k)))
            = ((amt - (b.length - (off - k)) : Nat) : Int) := by
          omega
        rw [ho, ha]
        rw [ih (k + b.length) (k + b.length) _ hc2 (le_refl _) (Nat.le_add_right _ _)]
        have hsl : intSlice b (↑off - ↑k) ((b.length : Int) - (↑off - ↑k)) = b.drop (off - k) := by
          unfold intSlice
          by_cases hbe : (b.length : Int) - (↑off - ↑k) ≤ 0
          · rw [if_pos hbe]
            have : b.length ≤ off - k := by omega
            rw [List.drop_eq_nil_of_le this]
          · rw [if_neg hbe]
            have h3 : ((b.length : Int) - (↑off - ↑k)).toNat = b.length - (off - k) := by omega
            have h4 : ((↑off - ↑k : Int)).toNat = off - k := by omega
            rw [h3, h4]
            exact List.take_of_length_le (by simp [List.length_drop])
        rw [hsl]
        rw [List.drop_append_eq_append_drop]
        rw [List.take_append_eq_append_take]
        have h1 : (off - k) - b.length = 0 := by omega
        rw [h1]
        have h2 : (b.drop (off - k)).take amt = b.drop (off - k) :=
          List.take_of_length_le (by simp [List.length_drop]; omega)
        have hz2 : k + List.length b - (k + List.length b) = 0 := by omega
        rw [List.drop_zero, h2, hz2, List.drop_zero]
        simp [List.length_drop]

end MemVFS

namespace MemVFS

/-- Reading a store whose runs tile `[n, n + |content|)` returns exactly the
requested slice of the content (including correct short reads past the end). -/
theorem xRead_slice (s : Store) (n off amt : Nat) (hc : chainedFrom n s = true) (hn : n ≤ off) :
    xRead s amt off = ((flattenStore s).drop (off - n)).take amt := by
  induction s generalizing n with
  | nil => simp [xRead, blocksOf, blocksGo, readOut, flattenStore]
  | cons p rest ih =>
    obtain ⟨k, b⟩ := p
    rw [chainedFrom_cons] at hc
    obtain ⟨hk, hc2⟩ := hc
    subst hk
    unfold xRead blocksOf
    by_cases hoff : off ≤ k + b.length
    · have hz : countLt ((k, b) :: rest) off - 1 = 0 := by
        rw [countLt_cons, countLt_eq_zero (fun p hp => le_trans hoff (keys_lb hc2 p hp))]
        split <;> omega
      rw [hz, List.drop_zero]
      exact walk_slice _ k off amt (chainedFrom_cons.mpr ⟨rfl, hc2⟩) hn (by simpa using hoff)
    · cases rest with
      | nil =>
        have hz : countLt ((k, b) :: []) off - 1 = 0 := by
          rw [countLt_cons, countLt_eq_zero (by simp)]
          split <;> omega
        rw [hz, List.drop_zero]
        rcases Nat.eq_zero_or_pos amt with rfl | hamt
        · rw [blocksGo_zero (by simp)]
          simp [readOut, flattenStore]
        · rw [blocksGo_cons (by omega) (by omega)]
          rw [readOut_cons]
          have hsl : intSlice b (↑off - ↑k)
              (min ((b.length : Int) - (↑off - ↑k)) ↑amt) = [] := by
            unfold intSlice
            rw [if_pos (by omega)]
          rw [hsl]
          show ([] : Bytes) ++ readOut (blocksGo ([] : Store) _ _) = _
          rw [show ∀ (x y : Int), blocksGo ([] : Store) x y = [] from fun x y => rfl, readOut_nil]
          simp only [flattenStore_cons, flattenStore_nil, List.append_nil]
          rw [List.drop_eq_nil_of_le (by omega)]
          simp
      | cons q u =>
        have hq1 : q.1 = k + b.length := by
          obtain ⟨q1, q2⟩ := q
          rw [chainedFrom_cons] at hc2
          exact hc2.1
        have hcnt : countLt ((k, b) :: q :: u) off = 1 + countLt (q :: u) off := by
          rw [countLt_cons]
          rw [if_pos (by omega)]
        have hcnt2 : 1 ≤ countLt (q :: u) off := by
          obtain ⟨q1, q2⟩ := q
          rw [countLt_cons]
          simp only at hq1
          rw [if_pos (by omega)]
          omega
        obtain ⟨m, hm⟩ : ∃ m, countLt (q :: u) off = m + 1 :=
          ⟨countLt (q :: u) off - 1, by omega⟩
        have hdrop : countLt ((k, b) :: q :: u) off - 1 = m + 1 := by omega
        rw [hdrop, List.drop_succ_cons]
        have hres := ih (k + b.length) hc2 (by omega)
        unfold xRead blocksOf at hres
        rw [hm] at hres
        simp only [Nat.add_sub_cancel] at hres
        rw [hres]
        have hbnil : List.drop (off - k) b = [] := List.drop_eq_nil_of_le (by omega)
        rw [flattenStore_cons k b (q :: u), List.drop_append_eq_append_drop, hbnil]
        simp only [List.nil_append]
        congr 2
        omega

end MemVFS

namespace MemVFS

/-! ## Deserialize builds a chained store whose content is the chunk join -/

theorem neLast_cons {k : Nat} {b : Bytes} {t : Store} :
    neLast ((k, b) :: t) = true ↔ (t = [] ∨ (b ≠ [] ∧ neLast t = true)) := by
  cases t with
  | nil => simp [neLast]
  | cons q u =>
    simp only [neLast, Bool.and_eq_true, Bool.not_eq_true']
    constructor
    · rintro ⟨h1, h2⟩
      exact Or.inr ⟨by simpa using h1, h2⟩
    · rintro (h | ⟨h1, h2⟩)
      · exact absurd h (by simp)
      · exact ⟨by simpa using h1, h2⟩

theorem insertSorted_atEnd (acc : Store) (n : Nat) (v : Bytes)
    (hc : chainedFrom n acc = true) (hne : neLast acc = true) :
    chainedFrom n (insertSorted acc (n + (flattenStore acc).length) v) = true ∧
    neLast (insertSorted acc (n + (flattenStore acc).length) v) = true ∧
    flattenStore (insertSorted acc (n + (flattenStore acc).length) v)
      = flattenStore acc ++ v := by
  induction acc generalizing n with
  | nil =>
    simp [insertSorted, chainedFrom, neLast, flattenStore]
  | cons p rest ih =>
    obtain ⟨k, b⟩ := p
    rw [chainedFrom_cons] at hc
    obtain ⟨hk, hc2⟩ := hc
    subst hk
    rw [neLast_cons] at hne
    rw [flattenStore_cons]
    by_cases hz : b.length + (flattenStore rest).length = 0
    · -- the head run is the empty trailing run: the insert replaces it
      have hb : b = [] := by
        rcases List.eq_nil_or_concat b with h | ⟨l, a, h⟩
        · exact h
        · subst h; simp at hz
      have hr : rest = [] := by
        rcases hne with h | ⟨h1, h2⟩
        · exact h
        · exact absurd hb h1
      subst hb hr
      simp [insertSorted, chainedFrom, neLast, flattenStore]
    · have hkey : k + (b ++ flattenStore rest).length
          = k + b.length + (flattenStore rest).length := by
        simp [List.length_append]
        omega
      rw [hkey]
      have hgt : k < k + b.length + (flattenStore rest).length := by omega
      rw [insertSorted_cons_gt b v (by omega)]
      have hne2 : neLast rest = true := by
        rcases hne with h | ⟨h1, h2⟩
        · subst h; rfl
        · exact h2
      obtain ⟨ihc, ihne, ihf⟩ := ih (k + b.length) hc2 hne2
      refine ⟨?_, ?_, ?_⟩
      · rw [chainedFrom_cons]
        exact ⟨rfl, ihc⟩
      · rw [neLast_cons]
        right
        constructor
        · -- b nonempty unless rest is empty and we are in the hz ≠ 0 case with b = []
          intro hb
          subst hb
          rcases hne with h | ⟨h1, h2⟩
          · subst h
            simp [insertSorted, flattenStore] at hz ⊢
          · exact h1 rfl
        · exact ihne
      · rw [flattenStore_cons, ihf, List.append_assoc]
  -- note: when b = [] and rest = [] the hz branch applies, so the `intro hb`
  -- case above only needs to rule out b = [] with rest ≠ [].

theorem deserialize_go (cs : List Bytes) (acc : Store)
    (hc : chainedFrom 0 acc = true) (hne : neLast acc = true) :
    chainedFrom 0 (cs.foldl (fun a b => (insertSorted a.1 a.2 b, a.2 + b.length))
        (acc, (flattenStore acc).length)).1 = true ∧
    neLast (cs.foldl (fun a b => (insertSorted a.1 a.2 b, a.2 + b.length))
        (acc, (flattenStore acc).length)).1 = true ∧
    flattenStore (cs.foldl (fun a b => (insertSorted a.1 a.2 b, a.2 + b.length))
        (acc, (flattenStore acc).length)).1 = flattenStore acc ++ cs.flatten := by
  induction cs generalizing acc with
  | nil => simp [hc, hne]
  | cons c cs ih =>
    rw [List.foldl_cons]
    have h0 := insertSorted_atEnd acc 0 c hc hne
    rw [Nat.zero_add] at h0
    obtain ⟨h1, h2, h3⟩ := h0
    have hlen : (flattenStore acc).length + c.length
        = (flattenStore (insertSorted acc (flattenStore acc).length c)).length := by
      rw [h3, List.length_append]
    rw [hlen]
    obtain ⟨g1, g2, g3⟩ := ih (insertSorted acc (flattenStore acc).length c) h1 h2
    refine ⟨g1, g2, ?_⟩
    rw [g3, h3]
    simp

/-- `deserialize` always yields a store chained from offset 0 whose content is
the concatenation of the submitted chunks. -/
theorem deserialize_spec (cs : List Bytes) :
    chainedFrom 0 (deserialize cs) = true ∧ neLast (deserialize cs) = true ∧
    flattenStore (deserialize cs) = cs.flatten := by
  have h := deserialize_go cs [] rfl rfl
  simpa [deserialize, flattenStore] using h

end MemVFS

namespace MemVFS

/-! ## Truncation of a chained store -/

theorem xTruncate_chain (s : Store) (m n : Nat) (hc : chainedFrom m s = true)
    (hn : n ≤ m + (flattenStore s).length) :
    chainedFrom m (xTruncate s n) = true ∧
    flattenStore (xTruncate s n) = (flattenStore s).take (n - m) ∧
    (n ≤ m → xTruncate s n = []) := by
  induction s generalizing m with
  | nil => exact ⟨rfl, by simp [xTruncate, flattenStore], fun _ => rfl⟩
  | cons p rest ih =>
    obtain ⟨k, b⟩ := p
    rw [chainedFrom_cons] at hc
    obtain ⟨hk, hc2⟩ := hc
    subst hk
    rw [flattenStore_cons] at hn ⊢
    simp only [List.length_append] at hn
    by_cases hnm : n ≤ k
    · have htk : n - k = 0 := by omega
      have hrest := (ih (k + b.length) hc2 (by omega)).2.2 (by omega)
      unfold xTruncate
      rw [List.filterMap_cons]
      simp only [htk, if_pos rfl]
      unfold xTruncate at hrest
      rw [hrest]
      refine ⟨rfl, ?_, fun _ => rfl⟩
      simp [flattenStore]
    · by_cases hlt : n - k < b.length
      · have hrest := (ih (k + b.length) hc2 (by omega)).2.2 (by omega)
        unfold xTruncate
        rw [List.filterMap_cons]
        simp only [if_neg (by omega : ¬ n - k = 0), if_pos hlt]
        unfold xTruncate at hrest
        rw [hrest]
        refine ⟨?_, ?_, fun h => absurd h (by omega)⟩
        · rw [chainedFrom_cons]
          refine ⟨rfl, ?_⟩
          rfl
        · rw [flattenStore_cons, flattenStore_nil, List.append_nil]
          rw [List.take_append_eq_append_take]
          have htail : List.take (n - k - b.length) (flattenStore rest) = [] := by
            rw [List.take_eq_nil_iff]
            exact Or.inl (by omega)
          rw [htail]
          simp
      · obtain ⟨g1, g2, _⟩ := ih (k + b.length) hc2 (by omega)
        unfold xTruncate
        rw [List.filterMap_cons]
        simp only [if_neg (by omega : ¬ n - k = 0), if_neg hlt]
        unfold xTruncate at g1 g2
        refine ⟨?_, ?_, fun h => absurd h (by omega)⟩
        · rw [chainedFrom_cons]
          exact ⟨rfl, g1⟩
        · rw [flattenStore_cons, g2, List.take_append_eq_append_take]
          have hbt : List.take (n - k) b = b := List.take_of_length_le (by omega)
          rw [hbt]
          congr 2
          omega

/-! ## Claim C5 -/

/-- C5, counterexample.  The store `{5: b"\x01"}` — reachable by a single
`xWrite` at offset 5 from an empty store — has `xFileSize() = 6`, so `n = 3`
satisfies `n ≤ xFileSize()`; but `xTruncate(3)` deletes the whole run
(its offset lies past 3) and the resulting `xFileSize()` is 0, not 3. -/
theorem C5_counterexample :
    3 ≤ xFileSize (xWrite [] [1] 5) ∧ xFileSize (xTruncate (xWrite [] [1] 5) 3) ≠ 3 := by
  decide

/-- C5, amended: on a store whose runs tile `[0, size)` with no gap (every
store the engine builds by in-order writes is of this shape), `xTruncate n`
with `n ≤ xFileSize()` leaves `xFileSize() = n`, and every read at an offset
`≥ n` returns the empty byte string. -/
theorem C5_amended (s : Store) (n : Nat) (hc : chainedFrom 0 s = true)
    (hn : n ≤ xFileSize s) :
    xFileSize (xTruncate s n) = n ∧
    ∀ amt off, n ≤ off → xRead (xTruncate s n) amt off = [] := by
  have hsz : n ≤ (flattenStore s).length := by
    rcases List.eq_nil_or_concat s with hs | ⟨l, a, hs⟩
    · subst hs
      simp [xFileSize] at hn
      simp [flattenStore, hn]
    · rw [xFileSize_chained hc (by simp [hs])] at hn
      omega
  obtain ⟨h1, h2, _⟩ := xTruncate_chain s 0 n hc (by omega)
  rw [Nat.sub_zero] at h2
  have hlen : (flattenStore (xTruncate s n)).length = n := by
    rw [h2, List.length_take]
    omega
  constructor
  · cases ht : xTruncate s n with
    | nil =>
      rw [ht] at hlen
      simp [flattenStore] at hlen
      simp [xFileSize, ← hlen]
    | cons q u =>
      rw [← ht]
      rw [xFileSize_chained h1 (by simp [ht])]
      omega
  · intro amt off hoff
    rw [xRead_slice (xTruncate s n) 0 off amt h1 (Nat.zero_le _)]
    rw [List.drop_eq_nil_of_le (by omega)]
    simp

/-- Witness for `C5_amended`: the spec scenario `write(b"AAAA", 0);
write(b"BB", 1); truncate(2)` ends with `file_size() == 2` and reads at
offsets `≥ 2` empty. -/
theorem C5_amended_witness :
    xFileSize (xTruncate (writeSeq [([1, 1, 1, 1], 0), ([5, 5], 1)]) 2) = 2 ∧
    (∀ amt off, 2 ≤ off →
      xRead (xTruncate (writeSeq [([1, 1, 1, 1], 0), ([5, 5], 1)]) 2) amt off = []) :=
  C5_amended (writeSeq [([1, 1, 1, 1], 0), ([5, 5], 1)]) 2 (by decide) (by decide)

end MemVFS

namespace MemVFS

/-! ## The write deletion loop on a chained store -/

theorem allNonempty_cons {k : Nat} {b : Bytes} {t : Store} :
    allNonempty ((k, b) :: t) = true ↔ b ≠ [] ∧ allNonempty t = true := by
  simp [allNonempty]

/-- One step of `_blocks` with the `consume` value given as a natural
number. -/
theorem blocksGo_cons_nat (bo : Nat) (b : Bytes) (rest : Store) (off amt c : Nat)
    (h1 : 0 < amt) (h2 : bo ≤ off)
    (hc : min ((b.length : Int) - ((off : Int) - (bo : Int))) (amt : Int) = (c : Int)) :
    blocksGo ((bo, b) :: rest) ↑off ↑amt =
      (bo, b, ((off - bo : Nat) : Int), ((c : Nat) : Int))
        :: blocksGo rest ↑(off + c) ↑(amt - c) := by
  rw [blocksGo_cons (by omega) (by omega)]
  rw [hc]
  have hso : ((off : Int) - bo) = ((off - bo : Nat) : Int) := by omega
  have ho : (↑off + (c : Int)) = ((off + c : Nat) : Int) := by push_cast; ring
  have ha : (↑amt - (c : Int)) = ((amt - c : Nat) : Int) := by omega
  rw [hso, ho, ha]

/-- Evaluation of one `xWrite` deletion step with natural-number `start` and
`consume`. -/
theorem applyDelete_eval (acc : Store) (bo : Nat) (b : Bytes) (st c : Nat) :
    applyDelete acc (bo, b, (st : Int), (c : Int)) =
      (if b.drop (st + c) ≠ [] then
        insertSorted
          (if b.take st ≠ [] then insertSorted acc bo (b.take st) else eraseKey acc bo)
          (bo + (st + c)) (b.drop (st + c))
       else
        (if b.take st ≠ [] then insertSorted acc bo (b.take st) else eraseKey acc bo)) := by
  unfold applyDelete
  have h1 : ((st : Int)).toNat = st := by omega
  have h2 : ((st : Int) + (c : Int)).toNat = st + c := by omega
  simp only [h1, h2]

/-- Aligned walk: deleting the blocks yielded by `_blocks(m, amt)` from a
store chained from `m` leaves exactly the suffix of the content past `amt`,
chained from `m + amt`. -/
theorem consumeCore (t : Store) (m amt : Nat) (hc : chainedFrom m t = true)
    (ha : allNonempty t = true) :
    chainedFrom (m + amt) ((blocksGo t ↑m ↑amt).foldl applyDelete t) = true ∧
    allNonempty ((blocksGo t ↑m ↑amt).foldl applyDelete t) = true ∧
    flattenStore ((blocksGo t ↑m ↑amt).foldl applyDelete t) = (flattenStore t).drop amt := by
  induction t generalizing m amt with
  | nil =>
    rw [show ∀ (x y : Int), blocksGo ([] : Store) x y = [] from fun x y => rfl]
    exact ⟨rfl, rfl, by simp [flattenStore]⟩
  | cons p rest ih =>
    obtain ⟨k, b⟩ := p
    rw [chainedFrom_cons] at hc
    obtain ⟨hk, hc2⟩ := hc
    subst hk
    rw [allNonempty_cons] at ha
    obtain ⟨hb, ha2⟩ := ha
    have hbl : 0 < b.length := List.length_pos.mpr hb
    have hkey : ∀ p ∈ rest, k + b.length ≤ p.1 := keys_lb hc2
    rcases Nat.eq_zero_or_pos amt with rfl | hamt
    · rw [blocksGo_zero (by simp)]
      rw [List.foldl_nil, Nat.add_zero, List.drop_zero]
      exact ⟨chainedFrom_cons.mpr ⟨rfl, hc2⟩, allNonempty_cons.mpr ⟨hb, ha2⟩, rfl⟩
    · by_cases hAB : b.length ≤ amt
      · -- the walk consumes this whole block and continues into the rest
        rw [blocksGo_cons_nat k b rest k amt b.length hamt (le_refl k) (by omega)]
        rw [List.foldl_cons]
        have hstz : k - k = 0 := by omega
        rw [hstz, applyDelete_eval]
        rw [if_neg (by simp), if_neg (by simp)]
        rw [eraseKey_cons_self b (fun p hp => by have := hkey p hp; omega)]
        obtain ⟨g1, g2, g3⟩ := ih (k + b.length) (amt - b.length) hc2 ha2
        have he : k + b.length + (amt - b.length) = k + amt := by omega
        rw [he] at g1
        refine ⟨g1, g2, ?_⟩
        rw [g3, flattenStore_cons, List.drop_append_eq_append_drop]
        have hbdrop : List.drop amt b = [] := List.drop_eq_nil_of_le (by omega)
        rw [hbdrop]
        simp only [List.nil_append]
      · -- the walk ends inside this block: its suffix survives at k + amt
        rw [blocksGo_cons_nat k b rest k amt amt hamt (le_refl k) (by omega)]
        have haz : amt - amt = 0 := by omega
        have hstz : k - k = 0 := by omega
        rw [haz, hstz, blocksGo_zero (by simp), List.foldl_cons, List.foldl_nil]
        rw [applyDelete_eval]
        have hds : b.drop (0 + amt) = b.drop amt := by rw [Nat.zero_add]
        rw [hds]
        rw [if_pos (by simp [List.drop_eq_nil_iff]; omega), if_neg (by simp)]
        rw [eraseKey_cons_self b (fun p hp => by have := hkey p hp; omega)]
        rw [insertSorted_front _ (fun p hp => by have := hkey p hp; omega)]
        have hko : k + (0 + amt) = k + amt := by omega
        rw [hko]
        refine ⟨?_, ?_, ?_⟩
        · rw [chainedFrom_cons]
          refine ⟨rfl, ?_⟩
          have hlen2 : k + amt + (b.drop amt).length = k + b.length := by
            simp only [List.length_drop]
            omega
          rw [hlen2]
          exact hc2
        · rw [allNonempty_cons]
          refine ⟨by simp [List.drop_eq_nil_iff]; omega, ha2⟩
        · rw [flattenStore_cons, flattenStore_cons, List.drop_append_eq_append_drop]
          have h0 : amt - b.length = 0 := by omega
          rw [h0, List.drop_zero]

end MemVFS

namespace MemVFS

theorem insertSorted_head_replace (k : Nat) (v w : Bytes) (t : Store) :
    insertSorted ((k, v) :: t) k w = (k, w) :: t := by
  simp [insertSorted]

/-- Entry-block write: on a store chained from `n` whose head block spans
`[n, n + |b|)` and contains (or abuts) the write offset, deleting the yielded
blocks and inserting `data` at `off` produces the store chained from `n`
whose content is the old content with the written window replaced by
`data`. -/
theorem writeCore (n off : Nat) (b : Bytes) (rest : Store) (data : Bytes)
    (hc2 : chainedFrom (n + b.length) rest = true) (hb : b ≠ [])
    (ha2 : allNonempty rest = true)
    (hn : n ≤ off) (hoff : off ≤ n + b.length) (hd : data ≠ []) :
    chainedFrom n (insertSorted
      ((blocksGo ((n, b) :: rest) ↑off ↑data.length).foldl applyDelete ((n, b) :: rest))
      off data) = true ∧
    allNonempty (insertSorted
      ((blocksGo ((n, b) :: rest) ↑off ↑data.length).foldl applyDelete ((n, b) :: rest))
      off data) = true ∧
    flattenStore (insertSorted
      ((blocksGo ((n, b) :: rest) ↑off ↑data.length).foldl applyDelete ((n, b) :: rest))
      off data)
      = (flattenStore ((n, b) :: rest)).take (off - n) ++ data
        ++ (flattenStore ((n, b) :: rest)).drop (off - n + data.length) := by
  have hA : 0 < data.length := List.length_pos.mpr hd
  have hbl : 0 < b.length := List.length_pos.mpr hb
  have hkey : ∀ p ∈ rest, n + b.length ≤ p.1 := keys_lb hc2
  rw [flattenStore_cons]
  by_cases hsmall : off - n + data.length ≤ b.length
  · -- the write lands inside the head block
    rw [blocksGo_cons_nat n b rest off data.length data.length hA hn (by omega)]
    have haz : data.length - data.length = 0 := by omega
    rw [haz, blocksGo_zero (by simp), List.foldl_cons, List.foldl_nil, applyDelete_eval]
    by_cases hre : off - n + data.length < b.length
    · have hbdr : b.drop (off - n + data.length) ≠ [] := by
        simp only [ne_eq, List.drop_eq_nil_iff]
        omega
      rw [if_pos hbdr]
      by_cases hst : 0 < off - n
      · have hbtk : b.take (off - n) ≠ [] := by
          simp only [ne_eq, List.take_eq_nil_iff]
          push_neg
          exact ⟨by omega, hb⟩
        rw [if_pos hbtk, insertSorted_head_replace]
        have s2 : insertSorted ((n, b.take (off - n)) :: rest) (n + (off - n + data.length))
              (b.drop (off - n + data.length))
            = (n, b.take (off - n)) :: insertSorted rest (n + (off - n + data.length))
              (b.drop (off - n + data.length)) :=
          insertSorted_cons_gt _ _ (by omega)
        have s3 : insertSorted rest (n + (off - n + data.length))
              (b.drop (off - n + data.length))
            = (n + (off - n + data.length), b.drop (off - n + data.length)) :: rest :=
          insertSorted_front _ (fun p hp => by have := hkey p hp; omega)
        rw [s2, s3]
        have s4 : insertSorted ((n, b.take (off - n)) ::
              (n + (off - n + data.length), b.drop (off - n + data.length)) :: rest) off data
            = (n, b.take (off - n)) :: insertSorted
              ((n + (off - n + data.length), b.drop (off - n + data.length)) :: rest)
              off data :=
          insertSorted_cons_gt _ _ (by omega)
        have s5 : insertSorted
              ((n + (off - n + data.length), b.drop (off - n + data.length)) :: rest) off data
            = (off, data) :: (n + (off - n + data.length),
                b.drop (off - n + data.length)) :: rest :=
          insertSorted_front _ (fun p hp => by
            rw [List.mem_cons] at hp
            rcases hp with rfl | hp
            · simp only
              omega
            · have := hkey p hp
              omega)
        rw [s4, s5]
        refine ⟨?_, ?_, ?_⟩
        · rw [chainedFrom_cons]
          refine ⟨rfl, ?_⟩
          have e1 : n + (b.take (off - n)).length = off := by
            simp only [List.length_take]
            omega
          rw [e1, chainedFrom_cons]
          refine ⟨rfl, ?_⟩
          rw [chainedFrom_cons]
          refine ⟨by omega, ?_⟩
          have e2 : off + data.length + (b.drop (off - n + data.length)).length
              = n + b.length := by
            simp only [List.length_drop]
            omega
          rw [e2]
          exact hc2
        · rw [allNonempty_cons, allNonempty_cons, allNonempty_cons]
          exact ⟨hbtk, hd, hbdr, ha2⟩
        · rw [flattenStore_cons, flattenStore_cons, flattenStore_cons]
          rw [List.take_append_eq_append_take, List.drop_append_eq_append_drop]
          have e3 : off - n - b.length = 0 := by omega
          have e4 : off - n + data.length - b.length = 0 := by omega
          rw [e3, e4, List.take_zero, List.drop_zero]
          simp
      · have hst0 : off - n = 0 := by omega
        have hbtk : ¬ (b.take (off - n) ≠ []) := by
          simp only [ne_eq, not_not, List.take_eq_nil_iff]
          exact Or.inl hst0
        rw [if_neg hbtk]
        have herase : eraseKey ((n, b) :: rest) n = rest :=
          eraseKey_cons_self b (fun p hp => by have := hkey p hp; omega)
        rw [herase]
        have s3 : insertSorted rest (n + (off - n + data.length))
              (b.drop (off - n + data.length))
            = (n + (off - n + data.length), b.drop (off - n + data.length)) :: rest :=
          insertSorted_front _ (fun p hp => by have := hkey p hp; omega)
        rw [s3]
        have s5 : insertSorted
              ((n + (off - n + data.length), b.drop (off - n + data.length)) :: rest) off data
            = (off, data) :: (n + (off - n + data.length),
                b.drop (off - n + data.length)) :: rest :=
          insertSorted_front _ (fun p hp => by
            rw [List.mem_cons] at hp
            rcases hp with rfl | hp
            · simp only
              omega
            · have := hkey p hp
              omega)
        rw [s5]
        refine ⟨?_, ?_, ?_⟩
        · rw [chainedFrom_cons]
          refine ⟨by omega, ?_⟩
          rw [chainedFrom_cons]
          refine ⟨by omega, ?_⟩
          have e2 : n + data.length + (b.drop (off - n + data.length)).length
              = n + b.length := by
            simp only [List.length_drop]
            omega
          rw [e2]
          exact hc2
        · rw [allNonempty_cons, allNonempty_cons]
          exact ⟨hd, hbdr, ha2⟩
        · rw [flattenStore_cons, flattenStore_cons]
          rw [List.take_append_eq_append_take, List.drop_append_eq_append_drop]
          have e3 : off - n - b.length = 0 := by omega
          have e4 : off - n + data.length - b.length = 0 := by omega
          rw [e3, e4, List.take_zero, List.drop_zero, hst0, List.take_zero]
          simp
    · -- the write reaches exactly the end of the head block
      have hre2 : off - n + data.length = b.length := by omega
      have hbdr : ¬ (b.drop (off - n + data.length) ≠ []) := by
        simp only [ne_eq, not_not, List.drop_eq_nil_iff]
        omega
      rw [if_neg hbdr]
      by_cases hst : 0 < off - n
      · have hbtk : b.take (off - n) ≠ [] := by
          simp only [ne_eq, List.take_eq_nil_iff]
          push_neg
          exact ⟨by omega, hb⟩
        rw [if_pos hbtk, insertSorted_head_replace]
        have s4 : insertSorted ((n, b.take (off - n)) :: rest) off data
            = (n, b.take (off - n)) :: insertSorted rest off data :=
          insertSorted_cons_gt _ _ (by omega)
        have s5 : insertSorted rest off data = (off, data) :: rest :=
          insertSorted_front _ (fun p hp => by have := hkey p hp; omega)
        rw [s4, s5]
        refine ⟨?_, ?_, ?_⟩
        · rw [chainedFrom_cons]
          refine ⟨rfl, ?_⟩
          have e1 : n + (b.take (off - n)).length = off := by
            simp only [List.length_take]
            omega
          rw [e1, chainedFrom_cons]
          refine ⟨rfl, ?_⟩
          have e2 : off + data.length = n + b.length := by omega
          rw [e2]
          exact hc2
        · rw [allNonempty_cons, allNonempty_cons]
          exact ⟨hbtk, hd, ha2⟩
        · rw [flattenStore_cons, flattenStore_cons]
          rw [List.take_append_eq_append_take, List.drop_append_eq_append_drop]
          have e3 : off - n - b.length = 0 := by omega
          have e4 : off - n + data.length - b.length = 0 := by omega
          rw [e3, e4, List.take_zero, List.drop_zero]
          have e5 : List.drop (off - n + data.length) b = [] :=
            List.drop_eq_nil_of_le (by omega)
          rw [e5]
          simp
      · have hst0 : off - n = 0 := by omega
        have hbtk : ¬ (b.take (off - n) ≠ []) := by
          simp only [ne_eq, not_not, List.take_eq_nil_iff]
          exact Or.inl hst0
        rw [if_neg hbtk]
        have herase : eraseKey ((n, b) :: rest) n = rest :=
          eraseKey_cons_self b (fun p hp => by have := hkey p hp; omega)
        rw [herase]
        have s5 : insertSorted rest off data = (off, data) :: rest :=
          insertSorted_front _ (fun p hp => by have := hkey p hp; omega)
        rw [s5]
        refine ⟨?_, ?_, ?_⟩
        · rw [chainedFrom_cons]
          refine ⟨by omega, ?_⟩
          have e2 : n + data.length = n + b.length := by omega
          rw [e2]
          exact hc2
        · rw [allNonempty_cons]
          exact ⟨hd, ha2⟩
        · rw [flattenStore_cons]
          rw [List.take_append_eq_append_take, List.drop_append_eq_append_drop]
          have e5 : List.drop (off - n + data.length) b = [] :=
            List.drop_eq_nil_of_le (by omega)
          have e3 : off - n - b.length = 0 := by omega
          have e4 : off - n + data.length - b.length = 0 := by omega
          rw [e3, e4, e5, List.take_zero, List.drop_zero, hst0, List.take_zero]
          simp
  · -- the write spills past the head block into the rest of the store
    have hcmin : min ((b.length : Int) - ((off : Int) - (n : Int))) (data.length : Int)
        = ((b.length - (off - n) : Nat) : Int) := by omega
    rw [blocksGo_cons_nat n b rest off data.length (b.length - (off - n)) hA hn hcmin]
    rw [List.foldl_cons, applyDelete_eval]
    have hcc : off - n + (b.length - (off - n)) = b.length := by omega
    have hdr : ¬ (b.drop (off - n + (b.length - (off - n))) ≠ []) := by
      simp only [ne_eq, not_not]
      rw [hcc]
      exact List.drop_length b
    rw [if_neg hdr]
    have hoo : off + (b.length - (off - n)) = n + b.length := by omega
    rw [hoo]
    obtain ⟨g1, g2, g3⟩ := consumeCore rest (n + b.length)
      (data.length - (b.length - (off - n))) hc2 ha2
    have gkeys : ∀ d ∈ blocksGo rest (↑(n + b.length))
        (↑(data.length - (b.length - (off - n)))), n < d.1 := by
      intro d hdm
      have := blocksGo_bo_lb hkey _ _ d hdm
      omega
    by_cases hst : 0 < off - n
    · have hbtk : b.take (off - n) ≠ [] := by
        simp only [ne_eq, List.take_eq_nil_iff]
        push_neg
        exact ⟨by omega, hb⟩
      rw [if_pos hbtk, insertSorted_head_replace]
      rw [foldl_applyDelete_cons _ _ gkeys]
      have s4 : insertSorted ((n, b.take (off - n)) ::
            (blocksGo rest (↑(n + b.length))
              (↑(data.length - (b.length - (off - n))))).foldl applyDelete rest) off data
          = (n, b.take (off - n)) :: insertSorted
            ((blocksGo rest (↑(n + b.length))
              (↑(data.length - (b.length - (off - n))))).foldl applyDelete rest) off data :=
        insertSorted_cons_gt _ _ (by omega)
      have s5 : insertSorted
            ((blocksGo rest (↑(n + b.length))
              (↑(data.length - (b.length - (off - n))))).foldl applyDelete rest) off data
          = (off, data) :: (blocksGo rest (↑(n + b.length))
              (↑(data.length - (b.length - (off - n))))).foldl applyDelete rest :=
        insertSorted_front _ (fun p hp => by have := keys_lb g1 p hp; omega)
      rw [s4, s5]
      refine ⟨?_, ?_, ?_⟩
      · rw [chainedFrom_cons]
        refine ⟨rfl, ?_⟩
        have e1 : n + (b.take (off - n)).length = off := by
          simp only [List.length_take]
          omega
        rw [e1, chainedFrom_cons]
        refine ⟨rfl, ?_⟩
        have e2 : off + data.length
            = n + b.length + (data.length - (b.length - (off - n))) := by omega
        rw [e2]
        exact g1
      · rw [allNonempty_cons, allNonempty_cons]
        exact ⟨hbtk, hd, g2⟩
      · rw [flattenStore_cons, flattenStore_cons, g3]
        rw [List.take_append_eq_append_take, List.drop_append_eq_append_drop]
        have e3 : off - n - b.length = 0 := by omega
        rw [e3, List.take_zero]
        have e5 : List.drop (off - n + data.length) b = [] :=
          List.drop_eq_nil_of_le (by omega)
        rw [e5]
        simp only [List.nil_append, List.append_nil]
        have e6 : off - n + data.length - b.length
            = data.length - (b.length - (off - n)) := by omega
        rw [e6, List.append_assoc]
    · have hst0 : off - n = 0 := by omega
      have hbtk : ¬ (b.take (off - n) ≠ []) := by
        simp only [ne_eq, not_not, List.take_eq_nil_iff]
        exact Or.inl hst0
      rw [if_neg hbtk]
      have herase : eraseKey ((n, b) :: rest) n = rest :=
        eraseKey_cons_self b (fun p hp => by have := hkey p hp; omega)
      rw [herase]
      have s5 : insertSorted
            ((blocksGo rest (↑(n + b.length))
              (↑(data.length - (b.length - (off - n))))).foldl applyDelete rest) off data
          = (off, data) :: (blocksGo rest (↑(n + b.length))
              (↑(data.length - (b.length - (off - n))))).foldl applyDelete rest :=
        insertSorted_front _ (fun p hp => by have := keys_lb g1 p hp; omega)
      rw [s5]
      refine ⟨?_, ?_, ?_⟩
      · rw [chainedFrom_cons]
        refine ⟨by omega, ?_⟩
        have e2 : n + data.length
            = n + b.length + (data.length - (b.length - (off - n))) := by omega
        rw [e2]
        exact g1
      · rw [allNonempty_cons]
        exact ⟨hd, g2⟩
      · rw [flattenStore_cons, g3]
        rw [List.take_append_eq_append_take, List.drop_append_eq_append_drop]
        have e5 : List.drop (off - n + data.length) b = [] :=
          List.drop_eq_nil_of_le (by omega)
        have e3 : off - n - b.length = 0 := by omega
        have e6 : off - n + data.length - b.length
            = data.length - (b.length - (off - n)) := by omega
        rw [e3, e5, e6, List.take_zero, hst0, List.take_zero]
        simp

end MemVFS

namespace MemVFS

/-- Chained stores with nonempty runs have strictly ascending keys. -/
theorem chained_sorted {n : Nat} {s : Store} (hc : chainedFrom n s = true)
    (ha : allNonempty s = true) : sortedKeys s := by
  induction s generalizing n with
  | nil => exact List.Pairwise.nil
  | cons p rest ih =>
    obtain ⟨k, b⟩ := p
    rw [chainedFrom_cons] at hc
    obtain ⟨hk, hc2⟩ := hc
    subst hk
    rw [allNonempty_cons] at ha
    obtain ⟨hb, ha2⟩ := ha
    have hbl : 0 < b.length := List.length_pos.mpr hb
    exact List.Pairwise.cons
      (fun q hq => by have := keys_lb hc2 q hq; simp only; omega)
      (ih hc2 ha2)

/-- `xWrite` into the interior of a chained store splices the new data into
the content. -/
theorem xWrite_chain_lt (s : Store) (n off : Nat) (data : Bytes)
    (hc : chainedFrom n s = true) (ha : allNonempty s = true)
    (hn : n ≤ off) (hlt : off < n + (flattenStore s).length) (hd : data ≠ []) :
    chainedFrom n (insertSorted ((blocksGo (s.drop (countLt s off - 1)) ↑off
        ↑data.length).foldl applyDelete s) off data) = true ∧
    allNonempty (insertSorted ((blocksGo (s.drop (countLt s off - 1)) ↑off
        ↑data.length).foldl applyDelete s) off data) = true ∧
    flattenStore (insertSorted ((blocksGo (s.drop (countLt s off - 1)) ↑off
        ↑data.length).foldl applyDelete s) off data)
      = (flattenStore s).take (off - n) ++ data
        ++ (flattenStore s).drop (off - n + data.length) := by
  induction s generalizing n with
  | nil =>
    rw [flattenStore_nil] at hlt
    simp at hlt
    omega
  | cons p rest ih =>
    obtain ⟨k, b⟩ := p
    rw [chainedFrom_cons] at hc
    obtain ⟨hk, hc2⟩ := hc
    subst hk
    rw [allNonempty_cons] at ha
    obtain ⟨hb, ha2⟩ := ha
    have hbl : 0 < b.length := List.length_pos.mpr hb
    have hkey : ∀ p ∈ rest, k + b.length ≤ p.1 := keys_lb hc2
    by_cases hoff : off ≤ k + b.length
    · have hz : countLt ((k, b) :: rest) off - 1 = 0 := by
        rw [countLt_cons, countLt_eq_zero (fun p hp => le_trans hoff (hkey p hp))]
        split <;> omega
      rw [hz, List.drop_zero]
      exact writeCore k off b rest data hc2 hb ha2 hn hoff hd
    · -- the write begins past the head block: recurse into the rest
      rw [flattenStore_cons] at hlt
      simp only [List.length_append] at hlt
      have hrne : rest ≠ [] := by
        intro h
        subst h
        simp [flattenStore] at hlt
        omega
      obtain ⟨q, u, hqu⟩ := List.exists_cons_of_ne_nil hrne
      obtain ⟨q1, q2⟩ := q
      have hc2q := hc2
      rw [hqu, chainedFrom_cons] at hc2q
      have hq1 : q1 = k + b.length := hc2q.1
      have hcnt2 : 1 ≤ countLt rest off := by
        rw [hqu, countLt_cons]
        rw [if_pos (by omega)]
        omega
      have hcnt : countLt ((k, b) :: rest) off = 1 + countLt rest off := by
        rw [countLt_cons, if_pos (by omega)]
      obtain ⟨m, hm⟩ : ∃ m, countLt rest off = m + 1 := ⟨countLt rest off - 1, by omega⟩
      have hdrop : countLt ((k, b) :: rest) off - 1 = m + 1 := by omega
      rw [hdrop, List.drop_succ_cons]
      have hgk : ∀ d ∈ blocksGo (rest.drop m) ↑off ↑data.length, k < d.1 := by
        intro d hdm
        have hsub : ∀ p ∈ rest.drop m, k + b.length ≤ p.1 :=
          fun p hp => hkey p (List.mem_of_mem_drop hp)
        have := blocksGo_bo_lb hsub _ _ d hdm
        omega
      rw [foldl_applyDelete_cons _ _ hgk]
      have hins : insertSorted ((k, b) ::
            (blocksGo (rest.drop m) ↑off ↑data.length).foldl applyDelete rest) off data
          = (k, b) :: insertSorted
            ((blocksGo (rest.drop m) ↑off ↑data.length).foldl applyDelete rest) off data :=
        insertSorted_cons_gt _ _ (by omega)
      rw [hins]
      have hih := ih (k + b.length) hc2 ha2 (by omega) (by omega)
      rw [hm] at hih
      simp only [Nat.add_sub_cancel] at hih
      obtain ⟨g1, g2, g3⟩ := hih
      refine ⟨?_, ?_, ?_⟩
      · rw [chainedFrom_cons]
        exact ⟨rfl, g1⟩
      · rw [allNonempty_cons]
        exact ⟨hb, g2⟩
      · rw [flattenStore_cons, g3, flattenStore_cons]
        rw [List.take_append_eq_append_take, List.drop_append_eq_append_drop]
        have e1 : List.take (off - k) b = b := List.take_of_length_le (by omega)
        have e2 : List.drop (off - k + data.length) b = [] :=
          List.drop_eq_nil_of_le (by omega)
        rw [e1, e2]
        simp only [List.nil_append]
        have i1 : off - k - b.length = off - (k + b.length) := by omega
        have i2 : off - k + data.length - b.length
            = off - (k + b.length) + data.length := by omega
        rw [i1, i2]
        simp [List.append_assoc]

end MemVFS

namespace MemVFS

/-! ## Writes at or past end-of-store: gap filling -/

theorem xWrite_nil (data : Bytes) (off : Nat) : xWrite [] data off = [(off, data)] := rfl

theorem xWrite_def (s : Store) (data : Bytes) (off : Nat) :
    xWrite s data off =
      (let s1 := if s.isEmpty then s else
        if xFileSize s ≤ off then
          insertSorted s (xFileSize s) (List.replicate (off - xFileSize s) 0)
        else s
       insertSorted ((blocksGo (s1.drop (countLt s1 off - 1)) ↑off ↑data.length).foldl
         applyDelete s1) off data) := rfl

theorem xWrite_eq_lt (s : Store) (data : Bytes) (off : Nat) (h1 : s ≠ [])
    (h2 : off < xFileSize s) :
    xWrite s data off = insertSorted
      ((blocksGo (s.drop (countLt s off - 1)) ↑off ↑data.length).foldl applyDelete s)
      off data := by
  rw [xWrite_def]
  have he : s.isEmpty = false := by simpa using h1
  simp only [he, Bool.false_eq_true, if_false, if_neg (by omega : ¬ xFileSize s ≤ off)]

theorem xWrite_eq_ge (s : Store) (data : Bytes) (off : Nat) (h1 : s ≠ [])
    (h2 : xFileSize s ≤ off) :
    xWrite s data off =
      insertSorted (((blocksGo
        ((insertSorted s (xFileSize s) (List.replicate (off - xFileSize s) 0)).drop
          (countLt (insertSorted s (xFileSize s) (List.replicate (off - xFileSize s) 0)) off
            - 1))
        ↑off ↑data.length)).foldl applyDelete
          (insertSorted s (xFileSize s) (List.replicate (off - xFileSize s) 0))) off data := by
  rw [xWrite_def]
  have he : s.isEmpty = false := by simpa using h1
  simp only [he, Bool.false_eq_true, if_false, if_pos h2]

theorem keys_lt_size {s : Store} (hsort : sortedKeys s) (ha : allNonempty s = true) :
    ∀ p ∈ s, p.1 < xFileSize s := by
  induction s with
  | nil => simp
  | cons p t ih =>
    unfold sortedKeys at hsort
    rw [List.pairwise_cons] at hsort
    obtain ⟨hk, ba⟩ := p
    rw [allNonempty_cons] at ha
    obtain ⟨hb, ha2⟩ := ha
    have hbl : 0 < ba.length := List.length_pos.mpr hb
    cases t with
    | nil =>
      intro q hq
      simp only [List.mem_singleton] at hq
      subst hq
      simp [xFileSize]
      omega
    | cons r u =>
      intro q hq
      rw [xFileSize_cons (by simp)]
      have hrsize : r.1 < xFileSize (r :: u) :=
        ih hsort.2 ha2 r (by simp)
      rw [List.mem_cons] at hq
      rcases hq with rfl | hq
      · have := hsort.1 r (by simp)
        simp only
        omega
      · exact ih hsort.2 ha2 q hq

theorem xWrite_append_gap (s : Store) (data : Bytes) (off : Nat)
    (hsort : sortedKeys s) (ha : allNonempty s = true) (hnil : s ≠ [])
    (hgt : xFileSize s < off) :
    xWrite s data off
      = s ++ [(xFileSize s, List.replicate (off - xFileSize s) 0), (off, data)] := by
  rw [xWrite_eq_ge s data off hnil (by omega)]
  have hks : ∀ p ∈ s, p.1 < xFileSize s := keys_lt_size hsort ha
  have hs1 : insertSorted s (xFileSize s) (List.replicate (off - xFileSize s) 0)
      = s ++ [(xFileSize s, List.replicate (off - xFileSize s) 0)] :=
    insertSorted_append_big _ hks
  rw [hs1]
  have hzlen : (List.replicate (off - xFileSize s) 0).length = off - xFileSize s := by simp
  have hzne : List.replicate (off - xFileSize s) 0 ≠ ([] : Bytes) := by
    simp [List.replicate_eq_nil_iff]
    omega
  have hkoff : ∀ p ∈ s ++ [(xFileSize s, List.replicate (off - xFileSize s) 0)],
      p.1 < off := by
    intro p hp
    rw [List.mem_append] at hp
    rcases hp with hp | hp
    · have := hks p hp
      omega
    · simp only [List.mem_singleton] at hp
      subst hp
      simpa using hgt
  have hcall : countLt (s ++ [(xFileSize s, List.replicate (off - xFileSize s) 0)]) off
      = s.length + 1 := by
    rw [countLt_all hkoff]
    simp
  have hdrop1 : (s ++ [(xFileSize s, List.replicate (off - xFileSize s) 0)]).drop
        (countLt (s ++ [(xFileSize s, List.replicate (off - xFileSize s) 0)]) off - 1)
      = [(xFileSize s, List.replicate (off - xFileSize s) 0)] := by
    rw [hcall]
    simp only [Nat.add_sub_cancel]
    exact List.drop_left s _
  rw [hdrop1]
  have hfin : insertSorted (s ++ [(xFileSize s, List.replicate (off - xFileSize s) 0)])
        off data
      = s ++ [(xFileSize s, List.replicate (off - xFileSize s) 0), (off, data)] := by
    rw [insertSorted_append_big _ hkoff]
    simp
  rcases Nat.eq_zero_or_pos data.length with hA | hA
  · rw [blocksGo_zero (by omega)]
    rw [List.foldl_nil, hfin]
  · rw [blocksGo_cons_nat (xFileSize s) (List.replicate (off - xFileSize s) 0) []
      off data.length 0 hA (by omega) (by omega)]
    rw [show blocksGo ([] : Store) ↑(off + 0) ↑(data.length - 0) = [] from rfl]
    rw [List.foldl_cons, List.foldl_nil, applyDelete_eval]
    have hrd : ¬ ((List.replicate (off - xFileSize s) 0).drop (off - xFileSize s + 0) ≠ []) := by
      simp only [ne_eq, not_not, List.drop_eq_nil_iff]
      omega
    rw [if_neg hrd]
    have hlt : (List.replicate (off - xFileSize s) 0).take (off - xFileSize s) ≠ [] := by
      simp only [ne_eq, List.take_eq_nil_iff]
      push_neg
      exact ⟨by omega, hzne⟩
    rw [if_pos hlt]
    have htk : (List.replicate (off - xFileSize s) 0).take (off - xFileSize s)
        = List.replicate (off - xFileSize s) 0 := List.take_of_length_le (by omega)
    rw [htk]
    have hself : insertSorted (s ++ [(xFileSize s, List.replicate (off - xFileSize s) 0)])
          (xFileSize s) (List.replicate (off - xFileSize s) 0)
        = s ++ [(xFileSize s, List.replicate (off - xFileSize s) 0)] :=
      insertSorted_self_pre _ _ hks
    rw [hself, hfin]

theorem xWrite_append_exact (s : Store) (data : Bytes) (off : Nat)
    (hsort : sortedKeys s) (ha : allNonempty s = true) (hnil : s ≠ [])
    (heq : xFileSize s = off) :
    xWrite s data off = s ++ [(off, data)] := by
  rw [xWrite_eq_ge s data off hnil (le_of_eq heq)]
  simp only [heq, Nat.sub_self, List.replicate_zero]
  have hks : ∀ p ∈ s, p.1 < off := by
    intro p hp
    have := keys_lt_size hsort ha p hp
    omega
  have hs1 : insertSorted s off ([] : Bytes) = s ++ [(off, [])] :=
    insertSorted_append_big _ hks
  rw [hs1]
  have hcall : countLt (s ++ [(off, [])]) off = s.length := by
    unfold countLt
    rw [List.filter_append]
    have f1 : s.filter (fun p => p.1 < off) = s :=
      List.filter_eq_self.mpr (fun p hp => by simpa using hks p hp)
    have f2 : (([(off, [])] : Store)).filter (fun p => p.1 < off) = [] := by simp
    rw [f1, f2]
    simp
  rw [hcall]
  obtain ⟨l, a, hla⟩ : ∃ l a, s = l ++ [a] := by
    rcases List.eq_nil_or_concat s with h | ⟨l, a, h⟩
    · exact absurd h hnil
    · exact ⟨l, a, by simpa [List.concat_eq_append] using h⟩
  obtain ⟨ka, ba⟩ := a
  have hsz : ka + ba.length = off := by
    rw [← heq, hla]
    unfold xFileSize
    rw [List.getLast?_concat]
  have hbane : ba ≠ [] := by
    have : (ka, ba) ∈ s := by rw [hla]; simp
    have h2 := List.all_eq_true.mp ha _ this
    simpa using h2
  have hlk : ∀ q ∈ l, q.1 < ka := by
    intro q hq
    have hp := hsort
    rw [hla] at hp
    unfold sortedKeys at hp
    exact (List.pairwise_append.mp hp).2.2 q hq (ka, ba) (by simp)
  have hdrop1 : (s ++ [(off, [])]).drop (s.length - 1) = [(ka, ba), (off, [])] := by
    rw [hla]
    simp only [List.length_append, List.length_singleton, Nat.add_sub_cancel]
    rw [List.append_assoc]
    exact List.drop_left l _
  rw [hdrop1]
  have hfin : insertSorted (s ++ [(off, [])]) off data = s ++ [(off, data)] :=
    insertSorted_replace_last _ _ hks
  rcases Nat.eq_zero_or_pos data.length with hA | hA
  · rw [blocksGo_zero (by omega)]
    rw [List.foldl_nil, hfin]
  · rw [blocksGo_cons_nat ka ba [(off, [])] off data.length 0 hA (by omega) (by omega)]
    rw [blocksGo_cons_nat off [] [] (off + 0) (data.length - 0) 0 (by omega) (by omega)
      (by simp)]
    rw [show blocksGo ([] : Store) ↑(off + 0 + 0) ↑(data.length - 0 - 0) = [] from rfl]
    rw [List.foldl_cons, List.foldl_cons, List.foldl_nil]
    rw [applyDelete_eval, applyDelete_eval]
    have hrd : ¬ (ba.drop (off - ka + 0) ≠ []) := by
      simp only [ne_eq, not_not, List.drop_eq_nil_iff]
      omega
    rw [if_neg hrd]
    have hlt : ba.take (off - ka) ≠ [] := by
      simp only [ne_eq, List.take_eq_nil_iff]
      push_neg
      have hbal : 0 < ba.length := List.length_pos.mpr hbane
      refine ⟨by omega, hbane⟩
    rw [if_pos hlt]
    have htk : ba.take (off - ka) = ba := List.take_of_length_le (by omega)
    rw [htk]
    have hself : insertSorted (s ++ [(off, [])]) ka ba = s ++ [(off, [])] := by
      rw [hla, List.append_assoc]
      exact insertSorted_self_pre _ _ hlk
    rw [hself]
    have hrd2 : ¬ (([] : Bytes).drop (off + 0 - off + 0) ≠ []) := by simp
    rw [if_neg hrd2]
    have hlt2 : ¬ (([] : Bytes).take (off + 0 - off) ≠ []) := by simp
    rw [if_neg hlt2]
    have herase : eraseKey (s ++ [(off, [])]) off = s :=
      eraseKey_append_last _ (fun p hp => by have := hks p hp; omega)
    rw [herase]
    exact insertSorted_append_big _ hks

end MemVFS

namespace MemVFS

/-! ## The unified write specification -/

theorem xWrite_spec (s : Store) (data : Bytes) (off : Nat)
    (hc : chainedFrom 0 s = true) (ha : allNonempty s = true)
    (hd : data ≠ []) (h0 : s = [] → off = 0) :
    chainedFrom 0 (xWrite s data off) = true ∧
    allNonempty (xWrite s data off) = true ∧
    flattenStore (xWrite s data off)
      = (flattenStore s).take off
        ++ List.replicate (off - (flattenStore s).length) 0
        ++ data ++ (flattenStore s).drop (off + data.length) := by
  rcases eq_or_ne s [] with hnil | hnil
  · subst hnil
    have hoff : off = 0 := h0 rfl
    subst hoff
    rw [xWrite_nil]
    refine ⟨by simp [chainedFrom], by simpa [allNonempty] using hd, ?_⟩
    simp [flattenStore]
  · have hsz : xFileSize s = (flattenStore s).length := by
      have := xFileSize_chained hc hnil
      omega
    rcases Nat.lt_trichotomy off (flattenStore s).length with hlt | hoe | hgt
    · have hde : xWrite s data off = insertSorted
          ((blocksGo (s.drop (countLt s off - 1)) ↑off ↑data.length).foldl applyDelete s)
          off data := xWrite_eq_lt s data off hnil (by omega)
      rw [hde]
      obtain ⟨w1, w2, w3⟩ :=
        xWrite_chain_lt s 0 off data hc ha (Nat.zero_le _) (by omega) hd
      refine ⟨w1, w2, ?_⟩
      rw [w3]
      have hrz : List.replicate (off - (flattenStore s).length) 0 = ([] : Bytes) := by
        simp [List.replicate_eq_nil_iff]
        omega
      rw [hrz]
      simp only [Nat.sub_zero, List.append_nil, List.nil_append]
    · have hde : xWrite s data off = s ++ [(off, data)] :=
        xWrite_append_exact s data off (chained_sorted hc ha) ha hnil (by omega)
      rw [hde]
      refine ⟨?_, ?_, ?_⟩
      · rw [chainedFrom_append]
        refine ⟨hc, ?_⟩
        simp [chainedFrom]
        omega
      · rw [allNonempty, List.all_append]
        rw [allNonempty] at ha
        simp [ha, hd]
      · rw [flattenStore, List.map_append, List.flatten_append]
        have h1 : (flattenStore s).take off = flattenStore s :=
          List.take_of_length_le (by omega)
        have h2 : List.replicate (off - (flattenStore s).length) 0 = ([] : Bytes) := by
          simp [List.replicate_eq_nil_iff]
          omega
        have h3 : (flattenStore s).drop (off + data.length) = [] := by
          rw [List.drop_eq_nil_iff]
          omega
        rw [h1, h2, h3]
        simp [flattenStore]
    · have hde : xWrite s data off
          = s ++ [(xFileSize s, List.replicate (off - xFileSize s) 0), (off, data)] :=
        xWrite_append_gap s data off (chained_sorted hc ha) ha hnil (by omega)
      rw [hde]
      refine ⟨?_, ?_, ?_⟩
      · rw [chainedFrom_append]
        refine ⟨hc, ?_⟩
        simp [chainedFrom]
        omega
      · rw [allNonempty, List.all_append]
        rw [allNonempty] at ha
        have hz : (List.replicate (off - xFileSize s) 0 : Bytes) ≠ [] := by
          simp [List.replicate_eq_nil_iff]
          omega
        simp [ha, hd, hz]
        omega
      · rw [flattenStore, List.map_append, List.flatten_append]
        have h1 : (flattenStore s).take off = flattenStore s :=
          List.take_of_length_le (by omega)
        have h3 : (flattenStore s).drop (off + data.length) = [] := by
          rw [List.drop_eq_nil_iff]
          omega
        rw [h1, h3, hsz]
        simp [flattenStore]

end MemVFS

namespace MemVFS

/-! ## Sortedness and nonemptiness invariants of the store operations

`SortedDict` keeps keys sorted by construction; here sortedness is an
invariant threaded through `insertSorted` / `eraseKey` and hence through
`xWrite`, `xTruncate` and `deserialize`.  Together with it we track that no
run of the store is the empty byte string, which is what `serialize_iter`
needs in order never to yield a zero-length chunk. -/

theorem allNonempty_iff {s : Store} : allNonempty s = true ↔ ∀ p ∈ s, p.2 ≠ [] := by
  unfold allNonempty
  rw [List.all_eq_true]
  constructor
  · intro h p hp
    simpa using h p hp
  · intro h p hp
    simpa using h p hp

theorem mem_insertSorted {s : Store} {k : Nat} {v : Bytes} {p : Nat × Bytes}
    (hp : p ∈ insertSorted s k v) : p = (k, v) ∨ p ∈ s := by
  induction s with
  | nil => simpa [insertSorted] using hp
  | cons q t ih =>
    obtain ⟨k', v'⟩ := q
    unfold insertSorted at hp
    by_cases h1 : k < k'
    · rw [if_pos h1] at hp
      simpa using hp
    · rw [if_neg h1] at hp
      by_cases h2 : k = k'
      · rw [if_pos h2] at hp
        rcases List.mem_cons.mp hp with h | h
        · exact Or.inl h
        · exact Or.inr (List.mem_cons_of_mem _ h)
      · rw [if_neg h2] at hp
        rcases List.mem_cons.mp hp with h | h
        · exact Or.inr (by simp [h])
        · rcases ih h with h' | h'
          · exact Or.inl h'
          · exact Or.inr (List.mem_cons_of_mem _ h')

theorem sortedKeys_insertSorted {s : Store} (k : Nat) (v : Bytes)
    (hs : sortedKeys s) : sortedKeys (insertSorted s k v) := by
  induction s with
  | nil =>
    unfold insertSorted sortedKeys
    simp
  | cons q t ih =>
    obtain ⟨k', v'⟩ := q
    unfold sortedKeys at hs
    rw [List.pairwise_cons] at hs
    obtain ⟨hq, ht⟩ := hs
    unfold insertSorted
    by_cases h1 : k < k'
    · rw [if_pos h1]
      unfold sortedKeys
      rw [List.pairwise_cons]
      refine ⟨?_, ?_⟩
      · intro r hr
        rcases List.mem_cons.mp hr with h | h
        · rw [h]
          exact h1
        · have := hq r h
          simp only
          omega
      · rw [List.pairwise_cons]
        exact ⟨hq, ht⟩
    · rw [if_neg h1]
      by_cases h2 : k = k'
      · rw [if_pos h2]
        unfold sortedKeys
        rw [List.pairwise_cons]
        refine ⟨?_, ht⟩
        intro r hr
        have := hq r hr
        simp only
        omega
      · rw [if_neg h2]
        unfold sortedKeys
        rw [List.pairwise_cons]
        refine ⟨?_, ih ht⟩
        intro r hr
        rcases mem_insertSorted hr with h | h
        · rw [h]
          simp only
          omega
        · exact hq r h

theorem mem_insertSorted_ne {s : Store} {k : Nat} {v : Bytes} {p : Nat × Bytes}
    (hs : sortedKeys s) (hp : p ∈ insertSorted s k v) :
    p = (k, v) ∨ (p ∈ s ∧ p.1 ≠ k) := by
  induction s with
  | nil => simpa [insertSorted] using hp
  | cons q t ih =>
    obtain ⟨k', v'⟩ := q
    unfold sortedKeys at hs
    rw [List.pairwise_cons] at hs
    obtain ⟨hq, ht⟩ := hs
    unfold insertSorted at hp
    by_cases h1 : k < k'
    · rw [if_pos h1] at hp
      rcases List.mem_cons.mp hp with h | h
      · exact Or.inl h
      · refine Or.inr ⟨h, ?_⟩
        rcases List.mem_cons.mp h with h' | h'
        · rw [h']
          simp only
          omega
        · have := hq p h'
          omega
    · rw [if_neg h1] at hp
      by_cases h2 : k = k'
      · rw [if_pos h2] at hp
        rcases List.mem_cons.mp hp with h | h
        · exact Or.inl h
        · refine Or.inr ⟨List.mem_cons_of_mem _ h, ?_⟩
          have := hq p h
          omega
      · rw [if_neg h2] at hp
        rcases List.mem_cons.mp hp with h | h
        · refine Or.inr ⟨by simp [h], ?_⟩
          rw [h]
          simp only
          omega
        · rcases ih ht h with h' | ⟨hm, hk⟩
          · exact Or.inl h'
          · exact Or.inr ⟨List.mem_cons_of_mem _ hm, hk⟩

theorem sortedKeys_eraseKey {s : Store} (k : Nat) (hs : sortedKeys s) :
    sortedKeys (eraseKey s k) := by
  unfold sortedKeys at hs ⊢
  unfold eraseKey
  exact hs.filter _

theorem mem_eraseKey {s : Store} {k : Nat} {p : Nat × Bytes}
    (hp : p ∈ eraseKey s k) : p ∈ s := by
  unfold eraseKey at hp
  exact List.mem_of_mem_filter hp

theorem applyDelete_pres (acc : Store) (t : Nat × Bytes × Int × Int)
    (Q : Nat × Bytes → Prop) (hs : sortedKeys acc)
    (hm : ∀ p ∈ acc, Q p ∨ p.2 ≠ []) :
    sortedKeys (applyDelete acc t) ∧ ∀ p ∈ applyDelete acc t, Q p ∨ p.2 ≠ [] := by
  obtain ⟨bo, b, st, c⟩ := t
  have istep : ∀ (a : Store) (k : Nat) (v : Bytes), sortedKeys a →
      (∀ p ∈ a, Q p ∨ p.2 ≠ []) → v ≠ [] →
      sortedKeys (insertSorted a k v) ∧ ∀ p ∈ insertSorted a k v, Q p ∨ p.2 ≠ [] := by
    intro a k v hsa hma hv
    refine ⟨sortedKeys_insertSorted k v hsa, ?_⟩
    intro p hp
    rcases mem_insertSorted hp with h | h
    · right
      rw [h]
      exact hv
    · exact hma p h
  have estep : ∀ (a : Store) (k : Nat), sortedKeys a →
      (∀ p ∈ a, Q p ∨ p.2 ≠ []) →
      sortedKeys (eraseKey a k) ∧ ∀ p ∈ eraseKey a k, Q p ∨ p.2 ≠ [] := by
    intro a k hsa hma
    exact ⟨sortedKeys_eraseKey k hsa, fun p hp => hma p (mem_eraseKey hp)⟩
  unfold applyDelete
  dsimp only
  by_cases h1 : b.take st.toNat ≠ []
  · rw [if_pos h1]
    obtain ⟨s1, m1⟩ := istep acc bo _ hs hm h1
    by_cases h2 : b.drop (st + c).toNat ≠ []
    · rw [if_pos h2]
      exact istep _ _ _ s1 m1 h2
    · rw [if_neg h2]
      exact ⟨s1, m1⟩
  · rw [if_neg h1]
    obtain ⟨s1, m1⟩ := estep acc bo hs hm
    by_cases h2 : b.drop (st + c).toNat ≠ []
    · rw [if_pos h2]
      exact istep _ _ _ s1 m1 h2
    · rw [if_neg h2]
      exact ⟨s1, m1⟩

theorem foldl_applyDelete_pres (ts : List (Nat × Bytes × Int × Int)) (acc : Store)
    (Q : Nat × Bytes → Prop) (hs : sortedKeys acc)
    (hm : ∀ p ∈ acc, Q p ∨ p.2 ≠ []) :
    sortedKeys (ts.foldl applyDelete acc) ∧
    ∀ p ∈ ts.foldl applyDelete acc, Q p ∨ p.2 ≠ [] := by
  induction ts generalizing acc with
  | nil => exact ⟨hs, hm⟩
  | cons t ts ih =>
    rw [List.foldl_cons]
    obtain ⟨h1, h2⟩ := applyDelete_pres acc t Q hs hm
    exact ih _ h1 h2

theorem xWrite_core_pres (s1 : Store) (data : Bytes) (off : Nat)
    (hs : sortedKeys s1) (hm : ∀ p ∈ s1, p.1 = off ∨ p.2 ≠ []) (hd : data ≠ []) :
    sortedKeys (insertSorted ((blocksOf s1 off data.length).foldl applyDelete s1) off data) ∧
    ∀ p ∈ insertSorted ((blocksOf s1 off data.length).foldl applyDelete s1) off data,
      p.2 ≠ [] := by
  obtain ⟨h1, h2⟩ := foldl_applyDelete_pres (blocksOf s1 off data.length) s1
    (fun p => p.1 = off) hs hm
  refine ⟨sortedKeys_insertSorted _ _ h1, ?_⟩
  intro p hp
  rcases mem_insertSorted_ne h1 hp with h | ⟨hin, hne⟩
  · rw [h]
    exact hd
  · rcases h2 p hin with h | h
    · exact absurd h hne
    · exact h

theorem xWrite_sorted_nonempty (s : Store) (data : Bytes) (off : Nat)
    (hs : sortedKeys s) (ha : allNonempty s = true) (hd : data ≠ []) :
    sortedKeys (xWrite s data off) ∧ allNonempty (xWrite s data off) = true := by
  rcases eq_or_ne s [] with hnil | hnil
  · subst hnil
    rw [xWrite_nil]
    refine ⟨by unfold sortedKeys; simp, ?_⟩
    rw [allNonempty_iff]
    intro p hp
    simp only [List.mem_singleton] at hp
    rw [hp]
    exact hd
  · have hmem : ∀ p ∈ s, p.2 ≠ [] := allNonempty_iff.mp ha
    have hie : s.isEmpty = false := by simpa using hnil
    by_cases hsz : xFileSize s ≤ off
    · have key : xWrite s data off
          = insertSorted ((blocksOf (insertSorted s (xFileSize s)
              (List.replicate (off - xFileSize s) 0)) off data.length).foldl applyDelete
              (insertSorted s (xFileSize s) (List.replicate (off - xFileSize s) 0)))
            off data := by
        unfold xWrite
        simp only [hie, Bool.false_eq_true, if_false, if_pos hsz]
      rw [key]
      have hs1 : sortedKeys (insertSorted s (xFileSize s)
          (List.replicate (off - xFileSize s) 0)) := sortedKeys_insertSorted _ _ hs
      have hm1 : ∀ p ∈ insertSorted s (xFileSize s) (List.replicate (off - xFileSize s) 0),
          p.1 = off ∨ p.2 ≠ [] := by
        intro p hp
        rcases mem_insertSorted hp with h | h
        · rcases Nat.eq_or_lt_of_le hsz with he | hlt
          · left
            rw [h]
            exact he
          · right
            rw [h]
            simp only [ne_eq, List.replicate_eq_nil_iff]
            omega
        · exact Or.inr (hmem p h)
      obtain ⟨c1, c2⟩ := xWrite_core_pres _ data off hs1 hm1 hd
      exact ⟨c1, allNonempty_iff.mpr c2⟩
    · have key : xWrite s data off
          = insertSorted ((blocksOf s off data.length).foldl applyDelete s) off data := by
        unfold xWrite
        simp only [hie, Bool.false_eq_true, if_false, if_neg hsz]
      rw [key]
      have hm1 : ∀ p ∈ s, p.1 = off ∨ p.2 ≠ [] := fun p hp => Or.inr (hmem p hp)
      obtain ⟨c1, c2⟩ := xWrite_core_pres s data off hs hm1 hd
      exact ⟨c1, allNonempty_iff.mpr c2⟩

theorem xTruncate_sorted_nonempty (s : Store) (n : Nat) (hs : sortedKeys s)
    (ha : allNonempty s = true) :
    sortedKeys (xTruncate s n) ∧ allNonempty (xTruncate s n) = true := by
  have keyfix : ∀ (r x : Nat × Bytes), x ∈ (if n - r.1 = 0 then none
      else if n - r.1 < r.2.length then some (r.1, r.2.take (n - r.1)) else some r) →
      x.1 = r.1 := by
    intro r x hx
    split at hx
    · simp at hx
    · split at hx <;>
        (simp only [Option.mem_def, Option.some_inj] at hx
         subst hx
         rfl)
  constructor
  · unfold sortedKeys at hs ⊢
    unfold xTruncate
    refine List.Pairwise.filterMap _ ?_ hs
    intro p q hpq x hx y hy
    dsimp only at hx hy
    have kx := keyfix p x hx
    have ky := keyfix q y hy
    rw [kx, ky]
    exact hpq
  · rw [allNonempty_iff]
    intro p hp
    unfold xTruncate at hp
    rw [List.mem_filterMap] at hp
    obtain ⟨q, hq, hfq⟩ := hp
    have hqne : q.2 ≠ [] := allNonempty_iff.mp ha q hq
    have hql : 0 < q.2.length := List.length_pos.mpr hqne
    dsimp only at hfq
    by_cases h0 : n - q.1 = 0
    · rw [if_pos h0] at hfq
      exact absurd hfq (by simp)
    · rw [if_neg h0] at hfq
      by_cases h1 : n - q.1 < q.2.length
      · rw [if_pos h1, Option.some_inj] at hfq
        rw [← hfq]
        simp only [ne_eq, List.take_eq_nil_iff]
        push_neg
        exact ⟨h0, hqne⟩
      · rw [if_neg h1, Option.some_inj] at hfq
        rw [← hfq]
        exact hqne

theorem deserialize_nonempty_go (cs : List Bytes) (acc : Store) (off : Nat)
    (hne : ∀ b ∈ cs, b ≠ []) (hk : ∀ p ∈ acc, p.1 < off)
    (ha : allNonempty acc = true) :
    allNonempty (cs.foldl (fun a b => (insertSorted a.1 a.2 b, a.2 + b.length))
      (acc, off)).1 = true := by
  induction cs generalizing acc off with
  | nil => simpa using ha
  | cons b cs ih =>
    rw [List.foldl_cons]
    have hb : b ≠ [] := hne b (by simp)
    have hbl : 0 < b.length := List.length_pos.mpr hb
    dsimp only
    have hins : insertSorted acc off b = acc ++ [(off, b)] :=
      insertSorted_append_big _ hk
    rw [hins]
    refine ih (acc ++ [(off, b)]) (off + b.length)
      (fun r hr => hne r (List.mem_cons_of_mem _ hr)) ?_ ?_
    · intro p hp
      rcases List.mem_append.mp hp with h | h
      · have := hk p h
        omega
      · simp only [List.mem_singleton] at h
        rw [h]
        simp only
        omega
    · rw [allNonempty_iff]
      intro p hp
      rcases List.mem_append.mp hp with h | h
      · exact allNonempty_iff.mp ha p h
      · simp only [List.mem_singleton] at h
        rw [h]
        exact hb

theorem deserialize_nonempty (cs : List Bytes) (hne : ∀ b ∈ cs, b ≠ []) :
    allNonempty (deserialize cs) = true := by
  unfold deserialize
  exact deserialize_nonempty_go cs [] 0 hne (by simp) rfl

theorem reachable_inv {s : Store} (h : ReachableNE s) :
    sortedKeys s ∧ allNonempty s = true := by
  induction h with
  | empty => exact ⟨List.Pairwise.nil, rfl⟩
  | write data off hr hd ih => exact xWrite_sorted_nonempty _ data off ih.1 ih.2 hd
  | trunc n hr ih => exact xTruncate_sorted_nonempty _ n ih.1 ih.2
  | deser cs hcs =>
    have ha := deserialize_nonempty cs hcs
    obtain ⟨hc, _, _⟩ := deserialize_spec cs
    exact ⟨chained_sorted hc ha, ha⟩

end MemVFS

namespace MemVFS

/-! ## Well-formedness of write-built stores -/

theorem writeSeq_go (ws : List (Bytes × Nat)) (s : Store)
    (hc : chainedFrom 0 s = true) (ha : allNonempty s = true) (hs : s ≠ [])
    (hne : ∀ p ∈ ws, p.1 ≠ []) :
    chainedFrom 0 (ws.foldl (fun a p => xWrite a p.1 p.2) s) = true ∧
    allNonempty (ws.foldl (fun a p => xWrite a p.1 p.2) s) = true ∧
    ws.foldl (fun a p => xWrite a p.1 p.2) s ≠ [] := by
  induction ws generalizing s with
  | nil => exact ⟨hc, ha, hs⟩
  | cons w ws ih =>
    rw [List.foldl_cons]
    have hw : w.1 ≠ [] := hne w (by simp)
    obtain ⟨h1, h2, h3⟩ := xWrite_spec s w.1 w.2 hc ha hw (fun h => absurd h hs)
    have hfl : flattenStore (xWrite s w.1 w.2) ≠ [] := by
      rw [h3]
      simp [hw]
    have hsnil : xWrite s w.1 w.2 ≠ [] := by
      intro h
      rw [h] at hfl
      exact hfl rfl
    exact ih _ h1 h2 hsnil (fun p hp => hne p (List.mem_cons_of_mem _ hp))

theorem writeSeq_inv (w0 : Bytes) (ws : List (Bytes × Nat)) (hw0 : w0 ≠ [])
    (hne : ∀ p ∈ ws, p.1 ≠ []) :
    chainedFrom 0 (writeSeq ((w0, 0) :: ws)) = true ∧
    allNonempty (writeSeq ((w0, 0) :: ws)) = true := by
  unfold writeSeq
  rw [List.foldl_cons]
  dsimp only
  rw [xWrite_nil w0 0]
  have hc : chainedFrom 0 [(0, w0)] = true := by simp [chainedFrom]
  have ha : allNonempty [(0, w0)] = true := by
    rw [allNonempty_iff]
    intro p hp
    simp only [List.mem_singleton] at hp
    rw [hp]
    exact hw0
  obtain ⟨a, b, _⟩ := writeSeq_go ws [(0, w0)] hc ha (by simp) hne
  exact ⟨a, b⟩

/-! ## Claim C3: gap-filling at writes beyond end-of-store -/

/-- C3 counterexample: after `xWrite(b"\x01\x01\x01\x01", 0)` the file size is 4;
the subsequent `xWrite(b"\x02", 10)` — a plain journal-style skip, not the
byte-lock page — leaves a zero-filled run `(4, b"\x00" * 6)` covering the gap
`[4, 10)` in the base store, contradicting "no gap-filling in the base store". -/
theorem C3_counterexample :
    xFileSize (xWrite [] [1, 1, 1, 1] 0) = 4 ∧
    (4, List.replicate 6 0) ∈ xWrite (xWrite [] [1, 1, 1, 1] 0) [2] 10 := by
  decide

/-- C3, amended: `xWrite` gap-fills in the base store on EVERY write that
starts strictly beyond the current end-of-store of a nonempty store (not just
at the byte-lock page): the store becomes the old runs, then a zero-filled
run covering `[size, offset)`, then the new run `data` at `offset`. -/
theorem C3_amended (s : Store) (data : Bytes) (off : Nat)
    (hsort : sortedKeys s) (ha : allNonempty s = true) (hnil : s ≠ [])
    (hgt : xFileSize s < off) :
    xWrite s data off
      = s ++ [(xFileSize s, List.replicate (off - xFileSize s) 0), (off, data)] :=
  xWrite_append_gap s data off hsort ha hnil hgt

/-- Witness for `C3_amended` at the store `[(0, b"\x05")]` and a write of
`b"\x07"` at offset 3. -/
theorem C3_amended_witness :
    xWrite [(0, [5])] [7] 3
      = [(0, [5])] ++ [(xFileSize [(0, [5])],
          List.replicate (3 - xFileSize [(0, [5])]) 0), (3, [7])] :=
  C3_amended [(0, [5])] [7] 3 (by decide) (by decide) (by decide) (by decide)

/-! ## Claim C6: overlap writes -/

/-- C6 counterexample: the reachable store
`writeSeq [(b"\x07\x07", 4), (b"\x01..\x08", 2)]` holds overlapping runs
`(2, 8 bytes)` and `(4, 2 bytes)`.  The write of `b"\x09"` at offset 7 —
whose range `[7, 8)` overlaps the run at 2 and is disjoint from the read
range `[6, 7)` — changes that disjoint read from `b""` to `b"\x00"`. -/
theorem C6_counterexample :
    xRead (writeSeq [([7, 7], 4), ([1, 2, 3, 4, 5, 6, 7, 8], 2)]) 1 6 = [] ∧
    (2, [1, 2, 3, 4, 5, 6, 7, 8]) ∈ writeSeq [([7, 7], 4), ([1, 2, 3, 4, 5, 6, 7, 8], 2)] ∧
    xRead (xWrite (writeSeq [([7, 7], 4), ([1, 2, 3, 4, 5, 6, 7, 8], 2)]) [9] 7) 1 6
      = [0] := by
  decide

/-- C6, amended: on a gap-free store (runs tiling `[0, size)`, all nonempty),
a write of nonempty `data` at an offset inside the current content gives
`xRead(len(data), offset) = data`, and any read over a byte range disjoint
from `[offset, offset + len(data))` returns exactly what it returned before
the write. -/
theorem C6_amended (s : Store) (data : Bytes) (off roff ramt : Nat)
    (hc : chainedFrom 0 s = true) (ha : allNonempty s = true)
    (hd : data ≠ []) (hoff : off < (flattenStore s).length)
    (hdisj : roff + ramt ≤ off ∨ off + data.length ≤ roff) :
    xRead (xWrite s data off) data.length off = data ∧
    xRead (xWrite s data off) ramt roff = xRead s ramt roff := by
  have h0 : s = [] → off = 0 := by
    intro h
    rw [h] at hoff
    simp [flattenStore] at hoff
  obtain ⟨w1, w2, w3⟩ := xWrite_spec s data off hc ha hd h0
  have hrz : List.replicate (off - (flattenStore s).length) 0 = ([] : Bytes) := by
    simp only [List.replicate_eq_nil_iff]
    omega
  rw [hrz, List.append_nil] at w3
  have hr1 := xRead_slice (xWrite s data off) 0 off data.length w1 (Nat.zero_le _)
  have hr2 := xRead_slice (xWrite s data off) 0 roff ramt w1 (Nat.zero_le _)
  have hr3 := xRead_slice s 0 roff ramt hc (Nat.zero_le _)
  have hpre : ((flattenStore s).take off).length = off := by
    simp only [List.length_take]
    omega
  constructor
  · rw [hr1, w3, Nat.sub_zero]
    have e1 : ((flattenStore s).take off
          ++ (data ++ (flattenStore s).drop (off + data.length))).drop off
        = data ++ (flattenStore s).drop (off + data.length) := by
      rw [List.drop_append_eq_append_drop]
      have d1 : ((flattenStore s).take off).drop off = [] := by
        rw [List.drop_eq_nil_iff]
        omega
      rw [d1, hpre, Nat.sub_self, List.drop_zero, List.nil_append]
    have e0 : (flattenStore s).take off ++ data ++ (flattenStore s).drop (off + data.length)
        = (flattenStore s).take off
          ++ (data ++ (flattenStore s).drop (off + data.length)) := by
      rw [List.append_assoc]
    rw [e0, e1]
    exact List.take_left data ((flattenStore s).drop (off + data.length))
  · rw [hr2, hr3, w3, Nat.sub_zero]
    have e0 : (flattenStore s).take off ++ data ++ (flattenStore s).drop (off + data.length)
        = (flattenStore s).take off
          ++ (data ++ (flattenStore s).drop (off + data.length)) := by
      rw [List.append_assoc]
    rw [e0]
    rcases hdisj with hL | hR
    · rw [List.take_drop, List.take_drop]
      have e : ((flattenStore s).take off
            ++ (data ++ (flattenStore s).drop (off + data.length))).take (roff + ramt)
          = (flattenStore s).take (roff + ramt) := by
        rw [List.take_append_eq_append_take]
        have h1 : roff + ramt - ((flattenStore s).take off).length = 0 := by
          rw [hpre]
          omega
        rw [h1, List.take_zero, List.append_nil, List.take_take]
        have h2 : min (roff + ramt) off = roff + ramt := by omega
        rw [h2]
      rw [e]
    · have hX : ((flattenStore s).take off
            ++ (data ++ (flattenStore s).drop (off + data.length))).drop roff
          = (flattenStore s).drop roff := by
        rw [← List.append_assoc, List.drop_append_eq_append_drop]
        have hl : ((flattenStore s).take off ++ data).length = off + data.length := by
          rw [List.length_append, hpre]
        have h1 : ((flattenStore s).take off ++ data).drop roff = [] := by
          rw [List.drop_eq_nil_iff, hl]
          omega
        rw [h1, hl, List.drop_drop, List.nil_append]
        have h2 : off + data.length + (roff - (off + data.length)) = roff := by omega
        rw [h2]
      rw [hX]

/-- Witness for `C6_amended`: writing `b"\x09\x09"` at offset 1 of a 4-byte
file; the read at `[3, 4)` is disjoint from the written range `[1, 3)`. -/
theorem C6_amended_witness :
    xRead (xWrite [(0, [1, 2, 3, 4])] [9, 9] 1) 2 1 = [9, 9] ∧
    xRead (xWrite [(0, [1, 2, 3, 4])] [9, 9] 1) 1 3 = xRead [(0, [1, 2, 3, 4])] 1 3 :=
  C6_amended [(0, [1, 2, 3, 4])] [9, 9] 1 3 1 (by decide) (by decide) (by decide)
    (by decide) (by decide)

/-! ## Claim C1: serialize/deserialize round-trip -/

/-- C1 counterexample: the single write `xWrite(b"\x01", 5)` on a fresh file
(journal-style, first write at a nonzero offset) gives a store that reads
`b"\x01"` at offset 5; its serialization flattens to the single byte
`b"\x01"`, and deserializing that byte stream yields a store that reads `b""`
at offset 5 — the round-trip changes read results. -/
theorem C1_counterexample :
    xRead (writeSeq [([1], 5)]) 1 5 = [1] ∧
    (serializeIter (writeSeq [([1], 5)])).flatten = [1] ∧
    xRead (deserialize [[1]]) 1 5 = [] := by
  decide

/-- C1, amended: for a store built by nonempty writes whose first write lands
at offset 0 (as SQLite's main-file writes do), deserializing ANY re-chunking
of the serialized byte stream yields a store with identical `xRead` results
at every amount/offset. -/
theorem C1_amended (w0 : Bytes) (ws : List (Bytes × Nat)) (cs : List Bytes)
    (amt off : Nat) (hw0 : w0 ≠ []) (hne : ∀ p ∈ ws, p.1 ≠ [])
    (hchunk : cs.flatten = (serializeIter (writeSeq ((w0, 0) :: ws))).flatten) :
    xRead (deserialize cs) amt off = xRead (writeSeq ((w0, 0) :: ws)) amt off := by
  obtain ⟨hc, ha⟩ := writeSeq_inv w0 ws hw0 hne
  obtain ⟨hdc, _, hdf⟩ := deserialize_spec cs
  have h1 := xRead_slice (deserialize cs) 0 off amt hdc (Nat.zero_le _)
  have h2 := xRead_slice (writeSeq ((w0, 0) :: ws)) 0 off amt hc (Nat.zero_le _)
  rw [h1, h2, hdf, hchunk]
  have hflat : (serializeIter (writeSeq ((w0, 0) :: ws))).flatten
      = flattenStore (writeSeq ((w0, 0) :: ws)) := rfl
  rw [hflat]

/-- Witness for `C1_amended`: writes `b"\x01"@0` then `b"\x02"@3` (gap-filled
to `[1, 0, 0, 2]`), serialized and re-chunked as `[[1, 0], [0, 2]]`. -/
theorem C1_amended_witness :
    xRead (deserialize [[1, 0], [0, 2]]) 4 0
      = xRead (writeSeq [([1], 0), ([2], 3)]) 4 0 :=
  C1_amended [1] [([2], 3)] [[1, 0], [0, 2]] 4 0 (by decide) (by decide) (by decide)

/-! ## Claim C8: serialization never yields empty chunks -/

/-- C8 counterexample: `deserialize_iter` fed the arbitrary chunk iterable
`[b""]` (allowed by the claim) builds the store `{0: b""}`, and
`serialize_iter` on it yields exactly the zero-length chunk `b""`. -/
theorem C8_counterexample : serializeIter (deserialize [[]]) = [[]] := by decide

/-- C8, amended: for every store reachable by `xWrite` calls with nonempty
data, `xTruncate` calls, and `deserialize_iter` runs fed nonempty chunks,
every chunk yielded by `serialize_iter` is nonempty. -/
theorem C8_amended {s : Store} {b : Bytes} (hr : ReachableNE s)
    (hb : b ∈ serializeIter s) : b ≠ [] := by
  have ha := (reachable_inv hr).2
  unfold serializeIter at hb
  rw [List.mem_map] at hb
  obtain ⟨p, hp, hpb⟩ := hb
  rw [← hpb]
  exact allNonempty_iff.mp ha p hp

/-- Witness for `C8_amended` on the store deserialized from the single
nonempty chunk `b"\x01"`. -/
theorem C8_amended_witness : ([1] : Bytes) ≠ [] :=
  C8_amended (ReachableNE.deser [[1]] (by decide)) (by decide)

end MemVFS
